import Mathlib

/-!
# Verification of the Wiki_Graph pathfinding core

A shallow embedding, in Lean 4, of the core algorithms of the Wiki_Graph
repository (`app.py`, `app/cache.py`, `app/database.py`, `app/utils.py`),
together with proofs and refutations of the specification's claims.

Modelling conventions:

* Python strings are Lean `String`s; character-level operations
  (`str.strip`, `str.replace("_", " ")`, `str.lower`) are embedded as
  functions on `List Char`.  `str.lower` is embedded as the ASCII lowering
  `a..z` (Wikipedia titles handled by the claims are ASCII; Lean's and
  Python's Unicode tables agree on this fragment).
* The remote Wikipedia API is an `Oracle`: a function from titles to
  `Option (List String)` for outbound links (`none` = missing page, as in
  `get_wikipedia_links` returning `None`) and a function to backlink lists
  (truncated by the client, as in `get_wikipedia_backlinks`).
* Python `dict`s used as visited sets / parent maps / memo caches are
  embedded as association lists where a new write is consed on the front
  (so the most recent write wins on lookup, matching `dict` assignment).
  `collections.OrderedDict` (the LRU cache) is embedded as an association
  list whose front is the least-recently-used end.
* `while` loops are embedded as fuel-indexed recursion; exhausting fuel
  returns `none`, representing a search that has not terminated yet.
* Wall-clock time does not affect any claim under verification: the
  progress/keepalive events of the source are time-triggered and are not
  modelled.  Timestamps in the segment store are modelled as a `Nat`
  parameter (`now`).
* Python floats in the diversity computation and in backoff delays are
  modelled as exact rationals.
* `asyncio.gather` in `_validate_path` runs every edge check to completion;
  it is embedded as a left-to-right fold threading the edge memo, which
  yields the same boolean result for a deterministic oracle.
-/

namespace WikiGraph

/-! ## Python string primitives (`title.strip().replace("_", " ").lower()`) -/

/-- One character of Python's `str.replace("_", " ")`. -/
def pyRepl (c : Char) : Char := if c = '_' then ' ' else c

/-- One character of Python's `str.lower()` (ASCII fragment). -/
def pyToLower (c : Char) : Char :=
  if 65 ≤ c.toNat ∧ c.toNat ≤ 90 then Char.ofNat (c.toNat + 32) else c

/-- Whitespace test used by Python's `str.strip()` (ASCII fragment). -/
def wsChar (c : Char) : Bool := c.isWhitespace

/-- Right strip: drop trailing whitespace. -/
def rstripCh (l : List Char) : List Char := (l.reverse.dropWhile wsChar).reverse

/-- Python's `str.strip()` on the character list: trim both ends. -/
def pyStrip (l : List Char) : List Char := (rstripCh l).dropWhile wsChar

/-- `normalize_title` from `app.py` / `app/utils.py`:
`title.strip().replace("_", " ").lower()`. -/
def normalize_title (t : String) : String :=
  String.mk (((pyStrip t.data).map pyRepl).map pyToLower)

/-- The per-character key map: replace underscores, then lowercase.
`normalize_title t = String.mk ((pyStrip t.data).map charKey)`. -/
def charKey (c : Char) : Char := pyToLower (pyRepl c)

/-- Plain trim of a string, used to state what a second application of
`normalize_title` adds over the first. -/
def trimTitle (t : String) : String := String.mk (pyStrip t.data)

/-- Side condition under which `normalize_title` is idempotent: the trimmed
title neither begins nor ends with an underscore. -/
def NoEdgeUnderscore (t : String) : Prop :=
  (pyStrip t.data).head? ≠ some '_' ∧ (pyStrip t.data).getLast? ≠ some '_'

instance (t : String) : Decidable (NoEdgeUnderscore t) := by
  unfold NoEdgeUnderscore; infer_instance

/-! ## Association-list primitives

Python `dict`s are embedded as association lists; a write conses on the
front, so the most recent write wins on lookup.  The engine only ever
writes a key that is absent, so keys stay distinct there. -/

/-- Dictionary lookup. -/
def alookup {κ β : Type} [DecidableEq κ] (l : List (κ × β)) (k : κ) : Option β :=
  (l.find? (fun q => q.1 = k)).map Prod.snd

/-- `OrderedDict.move_to_end`: the entry for `k` moves to the back
(most-recently-used end). -/
def moveToEnd {κ β : Type} [DecidableEq κ] (l : List (κ × β)) (k : κ) : List (κ × β) :=
  match alookup l k with
  | none => l
  | some v => (l.eraseP (fun q => decide (q.1 = k))) ++ [(k, v)]

/-! ## Segment store (`app/database.py`)

The `path_segments` table is a list of rows in insertion (rowid) order;
`SELECT ... WHERE start_page = ? AND end_page = ?` with `fetchone` returns
the first matching row.  `CURRENT_TIMESTAMP` is the `now` parameter. -/

structure SegRow where
  start_page : String
  end_page : String
  segment_path : List String
  hops : Nat
  use_count : Nat
  last_used : Nat
  created_at : Nat
deriving DecidableEq

abbrev SegDB := List SegRow

def segKeyMatch (s e : String) (r : SegRow) : Bool :=
  decide (r.start_page = s) && decide (r.end_page = e)

def findSegment (db : SegDB) (s e : String) : Option SegRow :=
  db.find? (segKeyMatch s e)

/-- `UPDATE path_segments SET use_count = use_count + 1, last_used =
CURRENT_TIMESTAMP WHERE id = ?` for the first row matching `(s, e)`. -/
def touchFirst (db : SegDB) (s e : String) (now : Nat) : SegDB :=
  match db with
  | [] => []
  | r :: rest =>
    if segKeyMatch s e r then
      { r with use_count := r.use_count + 1, last_used := now } :: rest
    else
      r :: touchFirst rest s e now

/-- `save_path_segment` from `app/database.py`: bump the counters of an
existing row, or insert a fresh row with `use_count = 1`. -/
def save_path_segment (db : SegDB) (s e : String) (path : List String) (now : Nat) : SegDB :=
  match findSegment db s e with
  | some _ => touchFirst db s e now
  | none =>
    db ++ [{ start_page := s, end_page := e, segment_path := path,
             hops := path.length - 1, use_count := 1, last_used := now,
             created_at := now }]

/-- `save_path_segments_bulk` from `app/database.py`: the same per-row
logic folded over the batch inside one transaction. -/
def save_path_segments_bulk (db : SegDB) (segs : List (String × String × List String))
    (now : Nat) : SegDB :=
  segs.foldl (fun d q => save_path_segment d q.1 q.2.1 q.2.2 now) db

/-- `get_path_segment` from `app/database.py`: read the path of the first
matching row and bump its counters. -/
def get_path_segment (db : SegDB) (s e : String) (now : Nat) :
    Option (List String) × SegDB :=
  match findSegment db s e with
  | some r => (some r.segment_path, touchFirst db s e now)
  | none => (none, db)

/-! ## Segment cache (`app/cache.py`)

The source keys the `OrderedDict` by the string `f"{sn}::{en}"`; the pair
`(sn, en)` is used here (the two coincide whenever titles do not contain
`"::"`, which the request character set guarantees).  The `hits`/`misses`
counters are carried for completeness.  The store tier is the `SegDB` of
the previous section; `now` stands for the wall clock. -/

structure SegSource where
  from_page : String
  to_page : String
  source : String
  cached_at : Option Nat
deriving DecidableEq

structure PathCache where
  max_size : Nat
  enable_db_persistence : Bool
  mem : List ((String × String) × List String)
  db : SegDB
  now : Nat
  hits : Nat
  misses : Nat

/-- `PathCache._make_key`. -/
def mkKey (s e : String) : String × String := (normalize_title s, normalize_title e)

/-- `PathCache._put_internal`: move a present key to the MRU end, otherwise
append and evict the LRU entry on overflow; optionally write through. -/
def put_internal (c : PathCache) (s e : String) (path : List String)
    (update_db : Bool) : PathCache :=
  let k := mkKey s e
  let mem1 :=
    if (alookup c.mem k).isSome then moveToEnd c.mem k
    else
      let m1 := c.mem ++ [(k, path)]
      if m1.length > c.max_size then m1.drop 1 else m1
  let db1 :=
    if update_db && c.enable_db_persistence then save_path_segment c.db s e path c.now
    else c.db
  { c with mem := mem1, db := db1 }

/-- `PathCache.get`: local hit refreshes recency; local miss falls through
to the store and, on store hit, populates the LRU without re-writing the
store. -/
def PathCache.get (c : PathCache) (s e : String) : Option (List String) × PathCache :=
  let k := mkKey s e
  match alookup c.mem k with
  | some p => (some p, { c with mem := moveToEnd c.mem k, hits := c.hits + 1 })
  | none =>
    let c1 := { c with misses := c.misses + 1 }
    if c.enable_db_persistence then
      match get_path_segment c1.db s e c1.now with
      | (some seg, db') => (some seg, put_internal { c1 with db := db' } s e seg false)
      | (none, db') => (none, { c1 with db := db' })
    else (none, c1)

/-- `PathCache.put`. -/
def PathCache.put (c : PathCache) (s e : String) (path : List String) : PathCache :=
  put_internal c s e path true

/-- `PathCache.bulk_put`: update the in-memory tier per segment, then one
bulk store write. -/
def PathCache.bulk_put (c : PathCache) (segs : List (String × String × List String)) :
    PathCache :=
  let c1 := segs.foldl (fun acc q => put_internal acc q.1 q.2.1 q.2.2 false) c
  if c.enable_db_persistence && !segs.isEmpty then
    { c1 with db := save_path_segments_bulk c1.db segs c1.now }
  else c1

/-- `PathCache.extract_segments_from_path`: all sub-paths `path[i:j]` for
`j ∈ range(i+2, min(i+5, n+1))`. -/
def extract_segments_from_path (path : List String) : List (String × String × List String) :=
  (List.range path.length).flatMap (fun i =>
    ((List.range (min (i + 5) (path.length + 1))).drop (i + 2)).filterMap (fun j =>
      let seg := (path.drop i).take (j - i)
      if seg.length ≥ 2 then
        match seg.head?, seg.getLast? with
        | some a, some b => some (a, b, seg)
        | _, _ => none
      else none))

/-- `PathCache.cache_path`. -/
def PathCache.cache_path (c : PathCache) (path : List String) : PathCache :=
  if path.length < 2 then c
  else c.bulk_put (extract_segments_from_path path)

/-- Row order used by `warm_cache_from_db`
(`ORDER BY last_used DESC, use_count DESC`). -/
def warmOrder (a b : SegRow) : Bool :=
  decide (b.last_used < a.last_used) ||
    (decide (b.last_used = a.last_used) && decide (b.use_count ≤ a.use_count))

/-- `PathCache.warm_cache_from_db`: load the most recently used store rows
into the LRU without writing back. -/
def PathCache.warm_cache_from_db (c : PathCache) (limit : Nat) : PathCache :=
  if !c.enable_db_persistence then c
  else
    ((c.db.mergeSort warmOrder).take limit).foldl
      (fun acc r => put_internal acc r.start_page r.end_page r.segment_path false) c

/-- Row order used by the neighbour queries (`ORDER BY use_count DESC`). -/
def useOrder (a b : SegRow) : Bool := decide (b.use_count ≤ a.use_count)

/-- `PathCache.get_connected_nodes`.  The Python version accumulates into a
`set`; the encounter-ordered deduplicated list stands for it. -/
def PathCache.get_connected_nodes (c : PathCache) (page : String) (direction : String) :
    List String :=
  let memConn := c.mem.foldl (fun acc q =>
    let acc1 :=
      if (direction = "forward" ∨ direction = "both") ∧ q.1.1 = page then acc ++ [q.1.2]
      else acc
    if (direction = "backward" ∨ direction = "both") ∧ q.1.2 = page then acc1 ++ [q.1.1]
    else acc1) []
  let dbConn :=
    if c.enable_db_persistence then
      let outRows :=
        if direction = "forward" ∨ direction = "both" then
          (((c.db.filter (fun r => decide (r.start_page = page))).mergeSort useOrder).take 50).map
            (fun r => r.end_page)
        else []
      let inRows :=
        if direction = "backward" ∨ direction = "both" then
          (((c.db.filter (fun r => decide (r.end_page = page))).mergeSort useOrder).take 50).map
            (fun r => r.start_page)
        else []
      outRows ++ inRows
    else []
  (memConn ++ dbConn).dedup

/-- `PathCache._get_segment_timestamp`
(`ORDER BY created_at DESC LIMIT 1`). -/
def PathCache.get_segment_timestamp (c : PathCache) (s e : String) : Option Nat :=
  if !c.enable_db_persistence then none
  else
    (((c.db.filter (fun r => decide (r.start_page = s) && decide (r.end_page = e))).mergeSort
        (fun a b => decide (b.created_at ≤ a.created_at))).head?).map
      (fun r => r.created_at)

/-- One compose-BFS queue entry:
`(current, path_so_far, hops_consumed, provenance)`. -/
abbrev ComposeEntry := String × List String × Nat × List SegSource

/-- The inner `for next_page in connected` loop of `compose_path`.  Returns
either the found path or the updated cache, visited set and queue tail. -/
def composeScan (endP cur : String) (path : List String) (hops : Nat)
    (meta : List SegSource) :
    List String → PathCache → List String → List ComposeEntry →
    (Option (List String × List SegSource)) × PathCache × List String × List ComposeEntry
  | [], c, visited, acc => (none, c, visited, acc)
  | nxt :: rest, c, visited, acc =>
    if nxt ∈ visited then composeScan endP cur path hops meta rest c visited acc
    else
      match c.get cur nxt with
      | (none, c1) => composeScan endP cur path hops meta rest c1 visited acc
      | (some seg, c1) =>
        if seg.isEmpty then composeScan endP cur path hops meta rest c1 visited acc
        else
          let newPath := path ++ seg.drop 1
          let cachedAt := c1.get_segment_timestamp cur nxt
          let newMeta := meta ++ [{ from_page := cur, to_page := nxt,
                                    source := "cache", cached_at := cachedAt }]
          if nxt = endP then (some (newPath, newMeta), c1, visited, acc)
          else
            composeScan endP cur path hops meta rest c1 (visited ++ [nxt])
              (acc ++ [(nxt, newPath, hops + 1, newMeta)])

/-- The outer BFS loop of `compose_path`, fuel-indexed. -/
def composeBFS (endP : String) (maxHops : Nat) :
    Nat → PathCache → List ComposeEntry → List String →
    (Option (List String × List SegSource)) × PathCache
  | 0, c, _, _ => (none, c)
  | _ + 1, c, [], _ => (none, c)
  | fuel + 1, c, (cur, path, hops, meta) :: rest, visited =>
    if hops ≥ maxHops then composeBFS endP maxHops fuel c rest visited
    else
      let connected := c.get_connected_nodes cur "forward"
      match composeScan endP cur path hops meta connected c visited rest with
      | (some res, c1, _, _) => (some res, c1)
      | (none, c1, visited1, queue1) => composeBFS endP maxHops fuel c1 queue1 visited1

/-- `PathCache.compose_path`: direct segment check, then BFS over cached
segments.  (`if direct:` is Python truthiness, so an empty stored list is
treated as a miss.) -/
def PathCache.compose_path (c : PathCache) (s e : String) (maxHops fuel : Nat) :
    (Option (List String × List SegSource)) × PathCache :=
  let (direct, c1) := c.get s e
  match direct with
  | some p =>
    if p.isEmpty then composeBFS e maxHops fuel c1 [(s, [s], 0, [])] [s]
    else
      (some (p, [{ from_page := s, to_page := e, source := "cache",
                   cached_at := c1.get_segment_timestamp s e }]), c1)
  | none => composeBFS e maxHops fuel c1 [(s, [s], 0, [])] [s]

/-! ## Wikipedia client and retry policy (`app.py`)

`httpx`'s exception hierarchy is the crux: `TimeoutException`,
`ConnectError` and `ReadError` are all subclasses of `httpx.HTTPError`
(via `TransportError < RequestError < HTTPError`), and `HTTPStatusError`
is one as well.  The request body of `get_wikipedia_links` /
`get_wikipedia_backlinks` / `resolve_wikipedia_title` wraps everything in
`try: ... except httpx.HTTPError: return [] / None`, so every exception of
the HTTP layer is swallowed inside the body. -/

inductive PyExc
  | timeoutExc
  | connectErr
  | readErr
  | httpStatusErr
  | valueErr
  | otherExc
deriving DecidableEq

/-- Membership in `httpx.HTTPError` (what `except httpx.HTTPError` catches). -/
def isHttpError : PyExc → Bool
  | .timeoutExc | .connectErr | .readErr | .httpStatusErr => true
  | _ => false

/-- What `retry_on_failure`'s first `except` clause catches:
`(httpx.TimeoutException, httpx.ConnectError, httpx.ReadError)`. -/
def isRetryTrigger : PyExc → Bool
  | .timeoutExc | .connectErr | .readErr => true
  | _ => false

/-- What the HTTP layer does on one attempt of a links request. -/
inductive HttpOutcome
  | raiseExc (e : PyExc)
  | missingPage
  | emptyPages
  | okLinks (links : List String)
deriving DecidableEq

/-- A Python call either returns or raises. -/
inductive BodyResult (α : Type)
  | ret (v : α)
  | raised (e : PyExc)
deriving DecidableEq

/-- The undecorated body of `get_wikipedia_links`: every `httpx.HTTPError`
(transport or status) returns `[]`; a JSON `ValueError` returns `[]`; any
other exception returns `[]` (`except Exception`); a missing page or empty
pages list returns `None`; success returns the link titles. -/
def linksBody (o : HttpOutcome) : BodyResult (Option (List String)) :=
  match o with
  | .raiseExc e =>
    if isHttpError e then .ret (some [])
    else if e = .valueErr then .ret (some [])
    else .ret (some [])
  | .missingPage => .ret none
  | .emptyPages => .ret none
  | .okLinks ls => .ret (some ls)

/-- What the HTTP layer does on one attempt of an opensearch request. -/
inductive ResolveOutcome
  | raiseExc (e : PyExc)
  | okTitle (t : String)
  | noResult
deriving DecidableEq

/-- The undecorated body of `resolve_wikipedia_title`: every exception is
swallowed and surfaced as `None`. -/
def resolveBody (o : ResolveOutcome) : BodyResult (Option String) :=
  match o with
  | .raiseExc e => if isHttpError e then .ret none else .ret none
  | .okTitle t => .ret (some t)
  | .noResult => .ret none

/-- Trace of one decorated call: its outcome, the backoff sleeps performed
(seconds, exact rationals), and the number of attempts made. -/
structure RetryRun (α : Type) where
  result : BodyResult α
  sleeps : List ℚ
  attempts : Nat
deriving DecidableEq

/-- The `retry_on_failure(max_retries, backoff_factor)` decorator loop:
`for attempt in range(max_retries)`, retrying with
`backoff_factor * 2 ** attempt` sleeps only on the transport exceptions,
re-raising anything else immediately.  `remaining = max_retries - attempt`
counts the attempts still allowed, so `attempt < max_retries - 1` is
`remaining > 1`. -/
def retryLoop (bf : ℚ) (body : Nat → BodyResult α) :
    Nat → Nat → List ℚ → RetryRun α
  | 0, a, sleeps => ⟨.raised .otherExc, sleeps, a⟩
  | rem + 1, a, sleeps =>
    match body a with
    | .ret v => ⟨.ret v, sleeps, a + 1⟩
    | .raised e =>
      if isRetryTrigger e then
        if rem = 0 then ⟨.raised e, sleeps, a + 1⟩
        else retryLoop bf body rem (a + 1) (sleeps ++ [bf * 2 ^ a])
      else ⟨.raised e, sleeps, a + 1⟩

/-- `retry_on_failure(max_retries, backoff_factor)` applied to a body. -/
def retry_on_failure (mr : Nat) (bf : ℚ) (body : Nat → BodyResult α) : RetryRun α :=
  retryLoop bf body mr 0 []

/-- `get_wikipedia_links` as deployed: the decorated body, driven by the
per-attempt HTTP outcomes. -/
def get_wikipedia_links_run (os : Nat → HttpOutcome) : RetryRun (Option (List String)) :=
  retry_on_failure 3 (1/2) (fun a => linksBody (os a))

/-- `resolve_wikipedia_title` as deployed. -/
def resolve_wikipedia_title_run (os : Nat → ResolveOutcome) : RetryRun (Option String) :=
  retry_on_failure 3 (1/2) (fun a => resolveBody (os a))

/-! ## The link oracle and the bidirectional BFS engine (`app.py`)

The oracle presents the finite directed graph: `links t` is what
`get_wikipedia_links t` returns (`none` = missing page) and `backlinks t`
is the full backlink list before client-side truncation. -/

structure Oracle where
  links : String → Option (List String)
  backlinks : String → List String

/-- `get_wikipedia_backlinks(page, limit)`: the API call is capped at
`min(limit, 500)` and the result sliced to `limit`. -/
def get_wikipedia_backlinks (o : Oracle) (t : String) (limit : Nat) : List String :=
  (o.backlinks t).take (min limit 500)

/-- The per-search edge-validation memo `self._edge_cache`. -/
abbrev EdgeMemo := List ((String × String) × Bool)

/-- BFS-expansion seeding of the memo: every outbound edge of `fromN` is
recorded as true (later writes win, hence the cons). -/
def memoSeed (memo : EdgeMemo) (fromN : String) (linksN : List String) : EdgeMemo :=
  linksN.foldl (fun m ln => ((fromN, ln), true) :: m) memo

/-- `_validate_edge`: memo check, else fetch the source page's links, seed
all its positive edges, and record a negative entry when absent.  A fetch
failure (missing page) records and returns false. -/
def validate_edge (o : Oracle) (memo : EdgeMemo) (fromP toP : String) :
    Bool × EdgeMemo :=
  let fn := normalize_title fromP
  let tn := normalize_title toP
  match alookup memo (fn, tn) with
  | some b => (b, memo)
  | none =>
    match o.links fromP with
    | none => (false, ((fn, tn), false) :: memo)
    | some links =>
      let lns := links.map normalize_title
      let m1 := memoSeed memo fn lns
      if tn ∈ lns then (true, m1) else (false, ((fn, tn), false) :: m1)

/-- Consecutive pairs of a path. -/
def pathEdges : List String → List (String × String)
  | [] => []
  | [_] => []
  | a :: b :: rest => (a, b) :: pathEdges (b :: rest)

/-- The edge checks of `_validate_path`: `asyncio.gather` runs all of them
to completion; embedded as a fold threading the memo, conjoining results. -/
def validate_path_go (o : Oracle) :
    List (String × String) → EdgeMemo → Bool → Bool × EdgeMemo
  | [], m, acc => (acc, m)
  | (a, b) :: rest, m, acc =>
    let r := validate_edge o m a b
    validate_path_go o rest r.2 (acc && r.1)

/-- `_validate_path`: single-node or empty paths are trivially valid. -/
def validate_path (o : Oracle) (memo : EdgeMemo) (path : List String) :
    Bool × EdgeMemo :=
  if path.length < 2 then (true, memo)
  else validate_path_go o (pathEdges path) memo true

/-- Parent map: `normalized_title → (parent_normalized, canonical)`. -/
abbrev Parents := List (String × (Option String × String))

/-- `_reconstruct_forward_path`, fuel-indexed (the source walks the parent
chain with a `while`; any fuel of at least the chain length, e.g. the map
size, reproduces it). -/
def _reconstruct_forward_path (fuel : Nat) (parents : Parents) (k : String) :
    List String :=
  match fuel with
  | 0 => []
  | fuel + 1 =>
    match alookup parents k with
    | none => []
    | some (none, c) => [c]
    | some (some p, c) => _reconstruct_forward_path fuel parents p ++ [c]

/-- The ancestor walk of `_reconstruct_backward_path` after skipping the
meeting point itself. -/
def recBackAux (fuel : Nat) (parents : Parents) : Option String → List String
  | none => []
  | some k =>
    match fuel with
    | 0 => []
    | fuel + 1 =>
      match alookup parents k with
      | none => []
      | some (po, c) => c :: recBackAux fuel parents po

/-- `_reconstruct_backward_path`: skip the meeting point, then list the
ancestors' canonical titles in order (root, i.e. the end page, last). -/
def _reconstruct_backward_path (fuel : Nat) (parents : Parents) (k : String) :
    List String :=
  match alookup parents k with
  | none => []
  | some (po, _) => recBackAux fuel parents po

/-- Observable events of one `find_path_bidirectional` run: each
`_validate_path` call (with the memo contents at the moment of the call)
and the returned path (tagged with the side whose expansion produced it). -/
inductive Ev
  | validateEv (memoBefore : EdgeMemo) (path : List String) (ok : Bool)
  | retEv (viaForward : Bool) (path : List String)
deriving DecidableEq

/-- The full local state of `find_path_bidirectional`, plus the event log. -/
structure PFState where
  fq : List (String × List String × Nat)
  bq : List (String × List String × Nat)
  fv : List (String × Option String)
  bv : List (String × Option String)
  fp : Parents
  bp : Parents
  pagesChecked : Nat
  fd : Nat
  bd : Nat
  memo : EdgeMemo
  log : List Ev

/-- The `for link in links` loop of a forward expansion: meeting-point
check against the backward visited set (return, no validation), else
visited/parents/queue update for unseen links. -/
def fwdScan (cur : String) (curPath : List String) (d : Nat) :
    List String → PFState → Option (List String) × PFState
  | [], s => (none, s)
  | link :: rest, s =>
    let ln := normalize_title link
    if (alookup s.bv ln).isSome then
      let finalPath :=
        curPath ++ [link] ++ _reconstruct_backward_path s.bp.length s.bp ln
      (some finalPath, { s with log := s.log ++ [.retEv true finalPath] })
    else if (alookup s.fv ln).isSome then
      fwdScan cur curPath d rest s
    else
      fwdScan cur curPath d rest
        { s with
          fv := (ln, some cur) :: s.fv,
          fp := (ln, (some (normalize_title cur), link)) :: s.fp,
          fq := s.fq ++ [(link, curPath ++ [link], d + 1)] }

/-- The `for link in links` loop of a backward expansion: on a meeting
point, clear the edge memo, validate the merged path end-to-end, return it
when valid and keep scanning when not; otherwise the usual
visited/parents/queue update. -/
def bwdScan (o : Oracle) (cur : String) (curPath : List String) (d : Nat) :
    List String → PFState → Option (List String) × PFState
  | [], s => (none, s)
  | link :: rest, s =>
    let ln := normalize_title link
    if (alookup s.fv ln).isSome then
      let finalPath := _reconstruct_forward_path s.fp.length s.fp ln ++ curPath
      let r := validate_path o [] finalPath
      let s1 := { s with memo := r.2,
                         log := s.log ++ [.validateEv [] finalPath r.1] }
      if r.1 then (some finalPath, { s1 with log := s1.log ++ [.retEv false finalPath] })
      else bwdScan o cur curPath d rest s1
    else if (alookup s.bv ln).isSome then
      bwdScan o cur curPath d rest s
    else
      bwdScan o cur curPath d rest
        { s with
          bv := (ln, some cur) :: s.bv,
          bp := (ln, (some (normalize_title cur), link)) :: s.bp,
          bq := s.bq ++ [(link, [link] ++ curPath, d + 1)] }

/-- The main `while` loop of `find_path_bidirectional`.  One fuel unit per
iteration; exhausted fuel stands for a search still running. -/
def bfsLoop (o : Oracle) (maxd : Nat) :
    Nat → PFState → Option (List String) × PFState
  | 0, s => (none, s)
  | fuel + 1, s =>
    if (s.fq ≠ [] ∨ s.bq ≠ []) ∧ s.fd + s.bd ≤ maxd then
      if s.fq ≠ [] ∧ s.fd ≤ s.bd then
        match s.fq with
        | [] => (none, s)
        | (cur, path, d) :: rest =>
          let s1 := { s with fq := rest, fd := max s.fd d,
                             pagesChecked := s.pagesChecked + 1 }
          match o.links cur with
          | none => bfsLoop o maxd fuel s1
          | some links =>
            let s2 := { s1 with
              memo := memoSeed s1.memo (normalize_title cur) (links.map normalize_title) }
            match fwdScan cur path d links s2 with
            | (some p, s3) => (some p, s3)
            | (none, s3) => bfsLoop o maxd fuel s3
      else if s.bq ≠ [] then
        match s.bq with
        | [] => (none, s)
        | (cur, path, d) :: rest =>
          let s1 := { s with bq := rest, bd := max s.bd d,
                             pagesChecked := s.pagesChecked + 1 }
          let links := get_wikipedia_backlinks o cur 300
          match bwdScan o cur path d links s1 with
          | (some p, s2) => (some p, s2)
          | (none, s2) => bfsLoop o maxd fuel s2
      else
        bfsLoop o maxd fuel s
    else (none, s)

/-- Initial state of a bidirectional search. -/
def initPFState (start endT : String) : PFState :=
  { fq := [(start, [start], 0)], bq := [(endT, [endT], 0)],
    fv := [(normalize_title start, none)],
    bv := [(normalize_title endT, none)],
    fp := [(normalize_title start, (none, start))],
    bp := [(normalize_title endT, (none, endT))],
    pagesChecked := 0, fd := 0, bd := 0, memo := [], log := [] }

/-- `find_path_bidirectional`: same-page short-circuit, else the loop. -/
def find_path_bidirectional (o : Oracle) (start endT : String) (maxd fuel : Nat) :
    Option (List String) × PFState :=
  if normalize_title start = normalize_title endT then
    (some [start], initPFState start endT)
  else bfsLoop o maxd fuel (initPFState start endT)

/-- Decidable path predicate over the oracle's forward links: every
consecutive pair is a live edge. -/
def chainOk (o : Oracle) : List String → Bool
  | [] => true
  | [_] => true
  | a :: b :: rest =>
    (match o.links a with
     | some ls => decide (b ∈ ls)
     | none => false) && chainOk o (b :: rest)

/-! ## K-diverse search (`find_k_paths_bidirectional`) -/

/-- `set(self.normalize_title(p) for p in path)`, as a deduplicated list. -/
def pathNormSet (p : List String) : List String := (p.map normalize_title).dedup

/-- Jaccard distance over the sets of normalized titles, exactly as
`_is_diverse_path` computes it (`1 - intersection/union`, similarity 0
when the union is empty); Python floats modelled as exact rationals. -/
def jaccard_distance (a b : List String) : ℚ :=
  let A := pathNormSet a
  let B := pathNormSet b
  let inter := (A.filter (fun x => x ∈ B)).length
  let uni := ((A ++ B).dedup).length
  let sim : ℚ := if uni > 0 then (inter : ℚ) / (uni : ℚ) else 0
  1 - sim

/-- `_is_diverse_path`: reject when too similar to any existing path. -/
def _is_diverse_path (newPath : List String) (existing : List (List String))
    (minDiv : ℚ) : Bool :=
  existing.all (fun q => !decide (jaccard_distance newPath q < minDiv))

/-- State of `find_k_paths_bidirectional` (no event log needed here). -/
structure KState where
  fq : List (String × List String × Nat)
  bq : List (String × List String × Nat)
  fv : List (String × Option String)
  bv : List (String × Option String)
  fp : Parents
  bp : Parents
  pagesChecked : Nat
  fd : Nat
  bd : Nat
  memo : EdgeMemo
  found : List (List String)
  firstLen : Option Nat

/-- Forward link scan of the k-search: a meeting point yields a candidate
(recording the length of the first one found and admitting it only when
diverse), and the link is still offered to the forward frontier. -/
def kFwdScan (minDiv : ℚ) (cur : String) (curPath : List String) (d : Nat) :
    List String → KState → KState
  | [], s => s
  | link :: rest, s =>
    let ln := normalize_title link
    let s1 :=
      if (alookup s.bv ln).isSome then
        let newPath :=
          (curPath ++ [link]) ++ _reconstruct_backward_path s.bp.length s.bp ln
        let sA :=
          match s.firstLen with
          | none => { s with firstLen := some newPath.length }
          | some _ => s
        if _is_diverse_path newPath sA.found minDiv then
          { sA with found := sA.found ++ [newPath] }
        else sA
      else s
    let s2 :=
      if (alookup s1.fv ln).isSome then s1
      else
        { s1 with
          fv := (ln, some cur) :: s1.fv,
          fp := (ln, (some (normalize_title cur), link)) :: s1.fp,
          fq := s1.fq ++ [(link, curPath ++ [link], d + 1)] }
    kFwdScan minDiv cur curPath d rest s2

/-- Backward link scan of the k-search: a meeting point clears the memo and
validates the merged path; an invalid path is skipped entirely
(`continue`), a valid one is recorded/admitted and the link still joins
the backward frontier. -/
def kBwdScan (o : Oracle) (minDiv : ℚ) (cur : String) (curPath : List String)
    (d : Nat) : List String → KState → KState
  | [], s => s
  | link :: rest, s =>
    let ln := normalize_title link
    if (alookup s.fv ln).isSome then
      let newPath := _reconstruct_forward_path s.fp.length s.fp ln ++ curPath
      let r := validate_path o [] newPath
      let s1 := { s with memo := r.2 }
      if !r.1 then kBwdScan o minDiv cur curPath d rest s1
      else
        let sA :=
          match s1.firstLen with
          | none => { s1 with firstLen := some newPath.length }
          | some _ => s1
        let sB :=
          if _is_diverse_path newPath sA.found minDiv then
            { sA with found := sA.found ++ [newPath] }
          else sA
        let sC :=
          if (alookup sB.bv ln).isSome then sB
          else
            { sB with
              bv := (ln, some cur) :: sB.bv,
              bp := (ln, (some (normalize_title cur), link)) :: sB.bp,
              bq := sB.bq ++ [(link, [link] ++ curPath, d + 1)] }
        kBwdScan o minDiv cur curPath d rest sC
    else
      let s2 :=
        if (alookup s.bv ln).isSome then s
        else
          { s with
            bv := (ln, some cur) :: s.bv,
            bp := (ln, (some (normalize_title cur), link)) :: s.bp,
            bq := s.bq ++ [(link, [link] ++ curPath, d + 1)] }
      kBwdScan o minDiv cur curPath d rest s2

/-- Loop exit of the k-search: sort the found paths by length ascending
(Python's `sort(key=len)` is a stable sort, modelled by the stable
`insertionSort`), return them, or `none` when empty. -/
def kFinish (s : KState) : Option (List (List String)) × KState :=
  let sorted :=
    List.insertionSort (fun a b : List String => a.length ≤ b.length) s.found
  (if sorted.isEmpty then none else some sorted, { s with found := sorted })

/-- The main `while` loop of `find_k_paths_bidirectional`.  The in-body
break guard compares the current total depth against
`shortest_path_length + 2` where `shortest_path_length = len(new_path)`,
the node count of the first path found. -/
def kLoop (o : Oracle) (maxPaths : Nat) (minDiv : ℚ) (maxd : Nat) :
    Nat → KState → Option (List (List String)) × KState
  | 0, s => (none, s)
  | fuel + 1, s =>
    if (s.fq ≠ [] ∨ s.bq ≠ []) ∧ s.found.length < maxPaths then
      let depth := s.fd + s.bd
      if (match s.firstLen with
          | some l => decide (depth > l + 2)
          | none => false) then kFinish s
      else if depth > maxd then kFinish s
      else
        if s.fq ≠ [] ∧ s.fd ≤ s.bd then
          match s.fq with
          | [] => kFinish s
          | (cur, path, d) :: rest =>
            let s1 := { s with fq := rest, fd := max s.fd d,
                               pagesChecked := s.pagesChecked + 1 }
            match o.links cur with
            | none => kLoop o maxPaths minDiv maxd fuel s1
            | some links =>
              let s2 := { s1 with
                memo := memoSeed s1.memo (normalize_title cur) (links.map normalize_title) }
              kLoop o maxPaths minDiv maxd fuel (kFwdScan minDiv cur path d links s2)
        else if s.bq ≠ [] then
          match s.bq with
          | [] => kFinish s
          | (cur, path, d) :: rest =>
            let s1 := { s with bq := rest, bd := max s.bd d,
                               pagesChecked := s.pagesChecked + 1 }
            let links := get_wikipedia_backlinks o cur 300
            kLoop o maxPaths minDiv maxd fuel (kBwdScan o minDiv cur path d links s1)
        else
          kLoop o maxPaths minDiv maxd fuel s
    else kFinish s

/-- Initial state of the k-search. -/
def initKState (start endT : String) : KState :=
  { fq := [(start, [start], 0)], bq := [(endT, [endT], 0)],
    fv := [(normalize_title start, none)],
    bv := [(normalize_title endT, none)],
    fp := [(normalize_title start, (none, start))],
    bp := [(normalize_title endT, (none, endT))],
    pagesChecked := 0, fd := 0, bd := 0, memo := [],
    found := [], firstLen := none }

/-- `find_k_paths_bidirectional`. -/
def find_k_paths_bidirectional (o : Oracle) (start endT : String) (maxPaths : Nat)
    (minDiv : ℚ) (maxd fuel : Nat) : Option (List (List String)) × KState :=
  if normalize_title start = normalize_title endT then
    (some [[start]], initKState start endT)
  else kLoop o maxPaths minDiv maxd fuel (initKState start endT)

/-- The k-search loop as the claim words its stop rule: break when the
current total depth exceeds the *length* (hop count, `len(path) - 1`) of
the first path found by more than 2.  Defined only to be compared with the
source's loop, whose guard uses the node count `len(path)`. -/
def kLoopClaimStop (o : Oracle) (maxPaths : Nat) (minDiv : ℚ) (maxd : Nat) :
    Nat → KState → Option (List (List String)) × KState
  | 0, s => (none, s)
  | fuel + 1, s =>
    if (s.fq ≠ [] ∨ s.bq ≠ []) ∧ s.found.length < maxPaths then
      let depth := s.fd + s.bd
      if (match s.firstLen with
          | some l => decide (depth > (l - 1) + 2)
          | none => false) then kFinish s
      else if depth > maxd then kFinish s
      else
        if s.fq ≠ [] ∧ s.fd ≤ s.bd then
          match s.fq with
          | [] => kFinish s
          | (cur, path, d) :: rest =>
            let s1 := { s with fq := rest, fd := max s.fd d,
                               pagesChecked := s.pagesChecked + 1 }
            match o.links cur with
            | none => kLoopClaimStop o maxPaths minDiv maxd fuel s1
            | some links =>
              let s2 := { s1 with
                memo := memoSeed s1.memo (normalize_title cur) (links.map normalize_title) }
              kLoopClaimStop o maxPaths minDiv maxd fuel (kFwdScan minDiv cur path d links s2)
        else if s.bq ≠ [] then
          match s.bq with
          | [] => kFinish s
          | (cur, path, d) :: rest =>
            let s1 := { s with bq := rest, bd := max s.bd d,
                               pagesChecked := s.pagesChecked + 1 }
            let links := get_wikipedia_backlinks o cur 300
            kLoopClaimStop o maxPaths minDiv maxd fuel (kBwdScan o minDiv cur path d links s1)
        else
          kLoopClaimStop o maxPaths minDiv maxd fuel s
    else kFinish s

/-- `find_k_paths_bidirectional` under the claim's stop rule. -/
def find_k_paths_claimStop (o : Oracle) (start endT : String) (maxPaths : Nat)
    (minDiv : ℚ) (maxd fuel : Nat) : Option (List (List String)) × KState :=
  if normalize_title start = normalize_title endT then
    (some [[start]], initKState start endT)
  else kLoopClaimStop o maxPaths minDiv maxd fuel (initKState start endT)

/-- The k-search loop as the amended claim words its stop rule: break when
the current total depth exceeds the *node count* of the first path found
by more than 2 (equivalently, its hop length by more than 3). -/
def kLoopAmendedStop (o : Oracle) (maxPaths : Nat) (minDiv : ℚ) (maxd : Nat) :
    Nat → KState → Option (List (List String)) × KState
  | 0, s => (none, s)
  | fuel + 1, s =>
    if (s.fq ≠ [] ∨ s.bq ≠ []) ∧ s.found.length < maxPaths then
      let depth := s.fd + s.bd
      if (match s.firstLen with
          | some nodeCount => decide (depth > nodeCount + 2)
          | none => false) then kFinish s
      else if depth > maxd then kFinish s
      else
        if s.fq ≠ [] ∧ s.fd ≤ s.bd then
          match s.fq with
          | [] => kFinish s
          | (cur, path, d) :: rest =>
            let s1 := { s with fq := rest, fd := max s.fd d,
                               pagesChecked := s.pagesChecked + 1 }
            match o.links cur with
            | none => kLoopAmendedStop o maxPaths minDiv maxd fuel s1
            | some links =>
              let s2 := { s1 with
                memo := memoSeed s1.memo (normalize_title cur) (links.map normalize_title) }
              kLoopAmendedStop o maxPaths minDiv maxd fuel (kFwdScan minDiv cur path d links s2)
        else if s.bq ≠ [] then
          match s.bq with
          | [] => kFinish s
          | (cur, path, d) :: rest =>
            let s1 := { s with bq := rest, bd := max s.bd d,
                               pagesChecked := s.pagesChecked + 1 }
            let links := get_wikipedia_backlinks o cur 300
            kLoopAmendedStop o maxPaths minDiv maxd fuel (kBwdScan o minDiv cur path d links s1)
        else
          kLoopAmendedStop o maxPaths minDiv maxd fuel s
    else kFinish s

/-- `find_k_paths_bidirectional` under the amended stop rule. -/
def find_k_paths_amendedStop (o : Oracle) (start endT : String) (maxPaths : Nat)
    (minDiv : ℚ) (maxd fuel : Nat) : Option (List (List String)) × KState :=
  if normalize_title start = normalize_title endT then
    (some [[start]], initKState start endT)
  else kLoopAmendedStop o maxPaths minDiv maxd fuel (initKState start endT)

/-! ## Cache operation sequences (for the LRU bound) -/

/-- The public `PathCache` operations the LRU-bound claim ranges over. -/
inductive CacheOp
  | getOp (s e : String)
  | putOp (s e : String) (p : List String)
  | bulkPutOp (segs : List (String × String × List String))
  | cachePathOp (p : List String)
  | warmOp (limit : Nat)

/-- Apply one public operation to the cache. -/
def applyOp (c : PathCache) : CacheOp → PathCache
  | .getOp s e => (c.get s e).2
  | .putOp s e p => c.put s e p
  | .bulkPutOp segs => c.bulk_put segs
  | .cachePathOp p => c.cache_path p
  | .warmOp n => c.warm_cache_from_db n

/-- Apply a sequence of public operations. -/
def applyOps (c : PathCache) (ops : List CacheOp) : PathCache :=
  ops.foldl applyOp c

/-- A freshly constructed `PathCache` over a given store state. -/
def PathCache.init (maxs : Nat) (dbp : Bool) (db : SegDB) (now : Nat) : PathCache :=
  { max_size := maxs, enable_db_persistence := dbp, mem := [], db := db,
    now := now, hits := 0, misses := 0 }

/-! ## Concrete instances used by counterexamples and witnesses -/

/-- A plain 7-hop chain `a0 → a1 → … → a7` with exact backlinks. -/
def chainOracle : Oracle :=
  { links := fun t =>
      if t = "a0" then some ["a1"] else if t = "a1" then some ["a2"]
      else if t = "a2" then some ["a3"] else if t = "a3" then some ["a4"]
      else if t = "a4" then some ["a5"] else if t = "a5" then some ["a6"]
      else if t = "a6" then some ["a7"] else if t = "a7" then some []
      else none,
    backlinks := fun t =>
      if t = "a1" then ["a0"] else if t = "a2" then ["a1"]
      else if t = "a3" then ["a2"] else if t = "a4" then ["a3"]
      else if t = "a5" then ["a4"] else if t = "a6" then ["a5"]
      else if t = "a7" then ["a6"] else [] }

/-- Edges `a→c, a→x, c→w, w→b, x→b`; the shortest `a…b` path is
`a→x→b` (2 hops) but the first meeting point discovered is `w`.
The backlink list of `b` presents `w` before `x`. -/
def overshootOracle : Oracle :=
  { links := fun t =>
      if t = "a" then some ["c", "x"] else if t = "c" then some ["w"]
      else if t = "w" then some ["b"] else if t = "x" then some ["b"]
      else if t = "b" then some [] else none,
    backlinks := fun t =>
      if t = "b" then ["w", "x"] else if t = "c" then ["a"]
      else if t = "x" then ["a"] else if t = "w" then ["c"] else [] }

/-- Edges `a→b, a→p, p→q, q→r, r→s2, s2→t, t→u, u→b`: a 1-hop path and a
7-hop path.  The second path is discovered at total depth 4 = (node count
of first path) + 2, past the claim's hop-based cutoff. -/
def kStopOracle : Oracle :=
  { links := fun t =>
      if t = "a" then some ["b", "p"] else if t = "p" then some ["q"]
      else if t = "q" then some ["r"] else if t = "r" then some ["s2"]
      else if t = "s2" then some ["t"] else if t = "t" then some ["u"]
      else if t = "u" then some ["b"] else if t = "b" then some [] else none,
    backlinks := fun t =>
      if t = "b" then ["a", "u"] else if t = "u" then ["t"]
      else if t = "t" then ["s2"] else if t = "s2" then ["r"]
      else if t = "r" then ["q"] else if t = "q" then ["p"]
      else if t = "p" then ["a"] else [] }

/-- Edges `a→b, a→p, p→b`: two admissible diverse paths. -/
def kDivOracle : Oracle :=
  { links := fun t =>
      if t = "a" then some ["b", "p"] else if t = "p" then some ["b"]
      else if t = "b" then some [] else none,
    backlinks := fun t =>
      if t = "b" then ["a", "p"] else if t = "p" then ["a"] else [] }

/-- Edges `a→c, a→x, c→w, x→b` (no `w→b` edge) while the backlink list of
`b` stale-claims `w`: the first backward meeting fails validation and the
second succeeds. -/
def staleBacklinkOracle : Oracle :=
  { links := fun t =>
      if t = "a" then some ["c", "x"] else if t = "c" then some ["w"]
      else if t = "w" then some [] else if t = "x" then some ["b"]
      else if t = "b" then some [] else none,
    backlinks := fun t =>
      if t = "b" then ["w", "x"] else if t = "c" then ["a"]
      else if t = "x" then ["a"] else if t = "w" then ["c"] else [] }

/-- An in-memory-only cache holding two well-formed segments that share
the interior title `x`. -/
def composeCexCache : PathCache :=
  { max_size := 100, enable_db_persistence := false,
    mem := [(("a", "b"), ["a", "x", "b"]), (("b", "c"), ["b", "x", "c"])],
    db := [], now := 0, hits := 0, misses := 0 }

/-- An in-memory-only cache from which `compose_path "a" "c"` succeeds. -/
def composeWitCache : PathCache :=
  { max_size := 100, enable_db_persistence := false,
    mem := [(("a", "b"), ["a", "b"]), (("b", "c"), ["b", "c"])],
    db := [], now := 0, hits := 0, misses := 0 }

/-- A one-row store state used to witness the segment-store frame claim. -/
def segWitDB : SegDB :=
  [{ start_page := "a", end_page := "b", segment_path := ["a", "b"],
     hops := 1, use_count := 3, last_used := 5, created_at := 1 }]

/-! ## Invariants and specification predicates -/

/-- Keys of an association list. -/
def keysOf {β : Type} (l : List (String × β)) : List String := l.map Prod.fst

/-- The event log before the terminal events of one engine run: only
failed validations, each performed on a freshly cleared memo. -/
def PreLog (l : List Ev) : Prop :=
  ∀ e ∈ l, ∃ q, e = Ev.validateEv [] q false

/-- Tree shape of a parent map: the root maps to `(none, rootCanon)`, each
entry's canonical title normalizes to its key, each parent is present, and
the ghost depth `dep` decreases towards the root and stays below `bound`. -/
structure PTree (ps : Parents) (root rootC : String) (bound : Nat)
    (dep : String → Nat) : Prop where
  rootEntry : alookup ps root = some (none, rootC)
  rootDep : dep root = 0
  canonOf : ∀ k po c, alookup ps k = some (po, c) → normalize_title c = k
  noneRoot : ∀ k c, alookup ps k = some (none, c) → k = root
  stepOf : ∀ k p c, alookup ps k = some (some p, c) →
    (∃ po2 c2, alookup ps p = some (po2, c2)) ∧ dep k = dep p + 1
  depBound : ∀ k po c, alookup ps k = some (po, c) → dep k ≤ bound

/-- Invariant of a forward-queue entry. -/
def QEntryF (start : String) (fvKeys : List String) (fd : Nat)
    (dep : String → Nat) : String × List String × Nat → Prop
  | (cur, path, d) =>
    path.head? = some start ∧ path.getLast? = some cur ∧
    path.length = d + 1 ∧ (path.map normalize_title).Nodup ∧
    (∀ t ∈ path, normalize_title t ∈ fvKeys) ∧
    d ≤ fd + 1 ∧ dep (normalize_title cur) = d

/-- Invariant of a backward-queue entry. -/
def QEntryB (endT : String) (bvKeys : List String) (bd : Nat)
    (dep : String → Nat) : String × List String × Nat → Prop
  | (cur, path, d) =>
    path.head? = some cur ∧ path.getLast? = some endT ∧
    path.length = d + 1 ∧ (path.map normalize_title).Nodup ∧
    (∀ t ∈ path, normalize_title t ∈ bvKeys) ∧
    d ≤ bd + 1 ∧ dep (normalize_title cur) = d

/-- The full loop invariant of `find_path_bidirectional`. -/
def SingleInv (start endT : String) (s : PFState) : Prop :=
  normalize_title start ≠ normalize_title endT ∧
  keysOf s.fv = keysOf s.fp ∧ keysOf s.bv = keysOf s.bp ∧
  (keysOf s.fp).Nodup ∧ (keysOf s.bp).Nodup ∧
  (∀ k, k ∈ keysOf s.fv → k ∉ keysOf s.bv) ∧
  ∃ depF depB,
    PTree s.fp (normalize_title start) start (s.fd + 1) depF ∧
    PTree s.bp (normalize_title endT) endT (s.bd + 1) depB ∧
    (∀ q ∈ s.fq, QEntryF start (keysOf s.fv) s.fd depF q) ∧
    (∀ q ∈ s.bq, QEntryB endT (keysOf s.bv) s.bd depB q)

/-- All facts the claims need about a path returned by the engine. -/
def GoodPath (start endT : String) (bound : Nat) (p : List String) : Prop :=
  p.head?.map normalize_title = some (normalize_title start) ∧
  p.getLast?.map normalize_title = some (normalize_title endT) ∧
  (p.map normalize_title).Nodup ∧
  p.length - 1 ≤ bound

/-- Well-formed in-memory segment cache: distinct normalized-fixed keys,
and every stored segment has at least two titles, no repeated normalized
titles, and endpoints normalizing to its key. -/
def WFMem (mem : List ((String × String) × List String)) : Prop :=
  (mem.map Prod.fst).Nodup ∧
  ∀ q ∈ mem,
    normalize_title q.1.1 = q.1.1 ∧ normalize_title q.1.2 = q.1.2 ∧
    2 ≤ q.2.length ∧ (q.2.map normalize_title).Nodup ∧
    q.2.head?.map normalize_title = some q.1.1 ∧
    q.2.getLast?.map normalize_title = some q.1.2

/-- The pair `(a, b)` appears, up to normalization, as an adjacent pair
inside some cached segment. -/
def PairInSegs (mem : List ((String × String) × List String)) (a b : String) : Prop :=
  ∃ k p u v, (k, p) ∈ mem ∧ (u, v) ∈ pathEdges p ∧
    normalize_title u = normalize_title a ∧ normalize_title v = normalize_title b

/-- The provenance list chains from `s` to `e` through cached segments. -/
def metaChainFrom (s e : String) : List SegSource → Prop
  | [] => s = e
  | m :: rest => m.from_page = s ∧ metaChainFrom m.to_page e rest

/-- Invariant of a compose-BFS queue entry over the initial memory `mem0`. -/
def CEntryInv (mem0 : List ((String × String) × List String)) (s : String)
    (visited : List String) : ComposeEntry → Prop
  | (cur, path, _hops, meta) =>
    path.head? = some s ∧
    path.getLast?.map normalize_title = some (normalize_title cur) ∧
    (∀ uv ∈ pathEdges path, PairInSegs mem0 uv.1 uv.2) ∧
    metaChainFrom s cur meta ∧
    ((meta.map SegSource.from_page) ++ [cur]).Nodup ∧
    (∀ h ∈ (meta.map SegSource.from_page) ++ [cur], h ∈ visited)

/-- Pairwise Jaccard diversity of a list of paths. -/
def PairwiseDiverse (minDiv : ℚ) (l : List (List String)) : Prop :=
  l.Pairwise (fun a b => minDiv ≤ jaccard_distance a b)

/-- Everything of a stored segment row except its usage counters: key,
path, hop count, creation time. -/
def rowCore (r : SegRow) : String × String × List String × Nat × Nat :=
  (r.start_page, r.end_page, r.segment_path, r.hops, r.created_at)

/-! # Lemmas and theorems -/

/-! ## Character-level facts about the normalization -/

lemma charEq_iff_toNat (c d : Char) : c = d ↔ c.toNat = d.toNat := by
  constructor
  · intro h; rw [h]
  · intro h
    exact Char.eq_of_val_eq (UInt32.eq_of_toBitVec_eq (BitVec.toNat_injective h))

lemma toNat_ofNat_lt (n : Nat) (h : n < 55296) : (Char.ofNat n).toNat = n := by
  have hv : n.isValidChar := Or.inl h
  rw [Char.ofNat, dif_pos hv]
  rfl

lemma isWs_iff (c : Char) :
    c.isWhitespace = true ↔ (c.toNat = 32 ∨ c.toNat = 9 ∨ c.toNat = 13 ∨ c.toNat = 10) := by
  unfold Char.isWhitespace
  simp only [Bool.or_eq_true, decide_eq_true_eq]
  rw [charEq_iff_toNat c ' ', charEq_iff_toNat c '\t', charEq_iff_toNat c '\x0d',
    charEq_iff_toNat c '\n']
  show _ ↔ _
  tauto

lemma pyToLower_toNat (c : Char) :
    (pyToLower c).toNat = if 65 ≤ c.toNat ∧ c.toNat ≤ 90 then c.toNat + 32 else c.toNat := by
  unfold pyToLower
  by_cases h : 65 ≤ c.toNat ∧ c.toNat ≤ 90
  · rw [if_pos h, if_pos h, toNat_ofNat_lt]
    omega
  · rw [if_neg h, if_neg h]

lemma ws_pyToLower (c : Char) : (pyToLower c).isWhitespace = c.isWhitespace := by
  by_cases h : 65 ≤ c.toNat ∧ c.toNat ≤ 90
  · have h1 : (pyToLower c).toNat = c.toNat + 32 := by rw [pyToLower_toNat, if_pos h]
    have h2 : (pyToLower c).isWhitespace = false := by
      rw [Bool.eq_false_iff, Ne, isWs_iff, h1]
      omega
    have h3 : c.isWhitespace = false := by
      rw [Bool.eq_false_iff, Ne, isWs_iff]
      omega
    rw [h2, h3]
  · unfold pyToLower
    rw [if_neg h]

lemma pyToLower_underscore (c : Char) : pyToLower c = '_' ↔ c = '_' := by
  rw [charEq_iff_toNat, charEq_iff_toNat c '_', pyToLower_toNat]
  show (if 65 ≤ c.toNat ∧ c.toNat ≤ 90 then c.toNat + 32 else c.toNat) = 95 ↔ c.toNat = 95
  by_cases h : 65 ≤ c.toNat ∧ c.toNat ≤ 90
  · rw [if_pos h]; omega
  · rw [if_neg h]

lemma pyToLower_idem (c : Char) : pyToLower (pyToLower c) = pyToLower c := by
  by_cases h : 65 ≤ c.toNat ∧ c.toNat ≤ 90
  · have h1 : (pyToLower c).toNat = c.toNat + 32 := by rw [pyToLower_toNat, if_pos h]
    have h2 : ¬ (65 ≤ (pyToLower c).toNat ∧ (pyToLower c).toNat ≤ 90) := by
      rw [h1]; omega
    show (if _ then _ else _) = _
    rw [if_neg h2]
  · have h1 : pyToLower c = c := by unfold pyToLower; rw [if_neg h]
    rw [h1, h1]

lemma pyRepl_of_ne {c : Char} (h : c ≠ '_') : pyRepl c = c := by
  unfold pyRepl; rw [if_neg h]

lemma pyRepl_ne_underscore (c : Char) : pyRepl c ≠ '_' := by
  unfold pyRepl
  by_cases h : c = '_'
  · rw [if_pos h]; decide
  · rw [if_neg h]; exact h

lemma ws_pyRepl (c : Char) :
    (pyRepl c).isWhitespace = (c.isWhitespace || decide (c = '_')) := by
  unfold pyRepl
  by_cases h : c = '_'
  · rw [if_pos h, h]
    decide
  · rw [if_neg h]
    simp [h]

lemma charKey_ne_underscore (c : Char) : charKey c ≠ '_' := by
  unfold charKey
  intro h
  exact pyRepl_ne_underscore c ((pyToLower_underscore (pyRepl c)).mp h)

lemma ws_charKey (c : Char) :
    (charKey c).isWhitespace = (c.isWhitespace || decide (c = '_')) := by
  unfold charKey
  rw [ws_pyToLower, ws_pyRepl]

lemma charKey_idem (c : Char) : charKey (charKey c) = charKey c := by
  have h1 : pyRepl (charKey c) = charKey c := pyRepl_of_ne (charKey_ne_underscore c)
  show pyToLower (pyRepl (charKey c)) = charKey c
  rw [h1]
  exact pyToLower_idem _

/-! ## List-level facts about `pyStrip` and `normalize_title` -/

lemma map_id_of_mem {f : Char → Char} :
    ∀ l : List Char, (∀ c ∈ l, f c = c) → l.map f = l := by
  intro l
  induction l with
  | nil => intro _; rfl
  | cons c t ih =>
    intro h
    simp only [List.map_cons]
    rw [h c (List.mem_cons_self c t), ih (fun x hx => h x (List.mem_cons_of_mem c hx))]

lemma mem_dropWhile {p : Char → Bool} {c : Char} :
    ∀ {l : List Char}, c ∈ l.dropWhile p → c ∈ l := by
  intro l
  induction l with
  | nil => intro h; exact h
  | cons a t ih =>
    intro h
    by_cases ha : p a
    · rw [List.dropWhile_cons_of_pos ha] at h
      exact List.mem_cons_of_mem a (ih h)
    · rw [List.dropWhile_cons_of_neg ha] at h
      exact h

lemma mem_pyStrip {c : Char} {l : List Char} (h : c ∈ pyStrip l) : c ∈ l := by
  unfold pyStrip rstripCh at h
  have h1 := mem_dropWhile h
  rw [List.mem_reverse] at h1
  have h2 := mem_dropWhile h1
  rw [List.mem_reverse] at h2
  exact h2

lemma dropWhile_head_not (p : Char → Bool) :
    ∀ (l : List Char) (a : Char), (l.dropWhile p).head? = some a → p a = false := by
  intro l
  induction l with
  | nil => intro a h; simp at h
  | cons c t ih =>
    intro a h
    by_cases hc : p c
    · rw [List.dropWhile_cons_of_pos hc] at h
      exact ih a h
    · rw [List.dropWhile_cons_of_neg hc] at h
      simp only [List.head?_cons, Option.some_inj] at h
      rw [← h]
      exact Bool.eq_false_iff.mpr hc

lemma dropWhile_eq_self_of {p : Char → Bool} :
    ∀ {l : List Char}, (∀ a, l.head? = some a → p a = false) → l.dropWhile p = l := by
  intro l h
  cases l with
  | nil => rfl
  | cons c t =>
    have hc := h c rfl
    rw [List.dropWhile_cons_of_neg (by rw [hc]; exact Bool.false_ne_true)]

lemma dropWhile_idem (p : Char → Bool) (l : List Char) :
    (l.dropWhile p).dropWhile p = l.dropWhile p :=
  dropWhile_eq_self_of (dropWhile_head_not p l)

lemma dropWhile_getLast? (p : Char → Bool) :
    ∀ l : List Char, l.dropWhile p = [] ∨ (l.dropWhile p).getLast? = l.getLast? := by
  intro l
  induction l with
  | nil => exact Or.inl rfl
  | cons c t ih =>
    by_cases hc : p c
    · rw [List.dropWhile_cons_of_pos hc]
      cases t with
      | nil => exact Or.inl rfl
      | cons b t2 =>
        rcases ih with h | h
        · exact Or.inl h
        · exact Or.inr (by rw [h, List.getLast?_cons_cons])
    · rw [List.dropWhile_cons_of_neg hc]
      exact Or.inr rfl

lemma dropWhile_charKey :
    ∀ (l : List Char),
      (∀ a, (l.dropWhile wsChar).head? = some a → a ≠ '_') →
      (l.map charKey).dropWhile wsChar = (l.dropWhile wsChar).map charKey := by
  intro l
  induction l with
  | nil => intro _; rfl
  | cons c t ih =>
    intro h
    by_cases hc : wsChar c
    · have hck : wsChar (charKey c) = true := by
        unfold wsChar at hc ⊢
        rw [ws_charKey, hc]
        rfl
      rw [List.map_cons, List.dropWhile_cons_of_pos hck, List.dropWhile_cons_of_pos hc]
      exact ih (by rw [← List.dropWhile_cons_of_pos (p := wsChar) hc]; exact h)
    · have hcu : c ≠ '_' := by
        apply h c
        rw [List.dropWhile_cons_of_neg hc]
        rfl
      have hck : ¬ wsChar (charKey c) = true := by
        unfold wsChar at hc ⊢
        rw [ws_charKey]
        simp [hcu, Bool.eq_false_iff.mpr hc]
      rw [List.map_cons, List.dropWhile_cons_of_neg hck, List.dropWhile_cons_of_neg hc,
        List.map_cons]

lemma pyStrip_head_not_ws (l : List Char) (a : Char) (h : (pyStrip l).head? = some a) :
    wsChar a = false :=
  dropWhile_head_not wsChar (rstripCh l) a h

lemma rstrip_getLast_not_ws (l : List Char) (a : Char)
    (h : (rstripCh l).getLast? = some a) : wsChar a = false := by
  unfold rstripCh at h
  rw [List.getLast?_reverse] at h
  exact dropWhile_head_not wsChar l.reverse a h

lemma pyStrip_getLast_not_ws (l : List Char) (a : Char)
    (h : (pyStrip l).getLast? = some a) : wsChar a = false := by
  unfold pyStrip at h
  rcases dropWhile_getLast? wsChar (rstripCh l) with h1 | h1
  · rw [show List.dropWhile wsChar (rstripCh l) = [] from h1] at h
    simp at h
  · rw [h1] at h
    exact rstrip_getLast_not_ws l a h

lemma mem_of_getLast?_eq {a : Char} {l : List Char} (h : l.getLast? = some a) :
    a ∈ l := by
  have hm : a ∈ l.getLast? := Option.mem_def.mpr h
  rcases List.mem_getLast?_eq_getLast hm with ⟨hne, heq⟩
  rw [heq]
  exact List.getLast_mem hne

lemma rstrip_eq_self_of {l : List Char}
    (h : ∀ a, l.getLast? = some a → wsChar a = false) : rstripCh l = l := by
  unfold rstripCh
  rw [dropWhile_eq_self_of (fun a ha => h a (by rw [← List.head?_reverse]; exact ha)),
    List.reverse_reverse]

lemma pyStrip_idem (l : List Char) : pyStrip (pyStrip l) = pyStrip l := by
  have h1 : rstripCh (pyStrip l) = pyStrip l :=
    rstrip_eq_self_of (pyStrip_getLast_not_ws l)
  show (rstripCh (pyStrip l)).dropWhile wsChar = pyStrip l
  rw [h1]
  exact dropWhile_eq_self_of (fun a ha => pyStrip_head_not_ws l a ha)

lemma rstrip_map_charKey (l : List Char)
    (h : ∀ a, (l.reverse.dropWhile wsChar).head? = some a → a ≠ '_') :
    rstripCh (l.map charKey) = (rstripCh l).map charKey := by
  unfold rstripCh
  rw [← List.map_reverse, dropWhile_charKey l.reverse h, List.map_reverse]

lemma strip_map_charKey (l : List Char)
    (h1 : (pyStrip l).head? ≠ some '_')
    (h2 : (pyStrip l).getLast? ≠ some '_') :
    pyStrip (l.map charKey) = (pyStrip l).map charKey := by
  have hrevhead : ∀ a, (l.reverse.dropWhile wsChar).head? = some a → a ≠ '_' := by
    intro a ha hau
    subst hau
    have hrw : List.dropWhile wsChar l.reverse = (rstripCh l).reverse := by
      unfold rstripCh
      rw [List.reverse_reverse]
    rw [hrw, List.head?_reverse] at ha
    rcases dropWhile_getLast? wsChar (rstripCh l) with hd | hd
    · have hall := List.dropWhile_eq_nil_iff.mp hd
      have hmem : '_' ∈ rstripCh l := mem_of_getLast?_eq ha
      have hws : wsChar '_' = true := hall _ hmem
      exact absurd hws (by decide)
    · rw [ha] at hd
      exact h2 hd
  have hstriphead : ∀ a, ((rstripCh l).dropWhile wsChar).head? = some a → a ≠ '_' := by
    intro a ha hau
    subst hau
    exact h1 ha
  show (rstripCh (l.map charKey)).dropWhile wsChar = (pyStrip l).map charKey
  rw [rstrip_map_charKey l hrevhead, dropWhile_charKey (rstripCh l) hstriphead]
  rfl

lemma normalize_data (t : String) :
    (normalize_title t).data = (pyStrip t.data).map charKey := by
  show ((pyStrip t.data).map pyRepl).map pyToLower = (pyStrip t.data).map charKey
  rw [List.map_map]
  rfl

lemma normalize_mk (l : List Char) :
    normalize_title (String.mk l) = String.mk ((pyStrip l).map charKey) := by
  unfold normalize_title
  rw [show (String.mk l).data = l from rfl, List.map_map]
  rfl

lemma string_eq_of_data {a b : String} (h : a.data = b.data) : a = b := by
  cases a
  cases b
  exact congrArg String.mk h

/-! ## C6: title normalization -/

/-- C6 counterexample: `normalize_title` strips *before* replacing
underscores with spaces, so a trailing underscore becomes an untrimmed
trailing space: `norm("a_") = "a "` but `norm(norm("a_")) = "a"`.
Idempotence, claimed for every string, fails at `"a_"`. -/
theorem normalization_idempotence_counterexample :
    normalize_title (normalize_title ("a_")) ≠ normalize_title ("a_") := by
  decide

/-- C6 (amended): a second application of `normalize_title` equals trimming
the first (`norm ∘ norm = trim ∘ norm`); hence `normalize_title` is
idempotent on every title whose trimmed form neither begins nor ends with
an underscore, and on such titles the case-insensitive underscore/space
key equivalence holds (two titles whose characters agree up to case and
underscore-versus-space get the same key). -/
theorem normalization_idempotence_amended :
    (∀ t : String, normalize_title (normalize_title t) = trimTitle (normalize_title t)) ∧
    (∀ t : String, NoEdgeUnderscore t →
      normalize_title (normalize_title t) = normalize_title t) ∧
    (∀ x y : String, NoEdgeUnderscore x → NoEdgeUnderscore y →
      x.data.map charKey = y.data.map charKey →
      normalize_title x = normalize_title y) := by
  have part1 : ∀ t : String,
      normalize_title (normalize_title t) = trimTitle (normalize_title t) := by
    intro t
    apply string_eq_of_data
    rw [normalize_data (normalize_title t)]
    show ((pyStrip (normalize_title t).data).map charKey) = pyStrip (normalize_title t).data
    apply map_id_of_mem
    intro c hc
    have hcm : c ∈ (normalize_title t).data := mem_pyStrip hc
    rw [normalize_data t] at hcm
    rcases List.mem_map.mp hcm with ⟨d, _, hd⟩
    rw [← hd]
    exact charKey_idem d
  refine ⟨part1, ?_, ?_⟩
  · intro t ht
    rw [part1 t]
    apply string_eq_of_data
    show pyStrip (normalize_title t).data = (normalize_title t).data
    rw [normalize_data t]
    have hs : pyStrip (pyStrip t.data) = pyStrip t.data := pyStrip_idem t.data
    have hc := strip_map_charKey (pyStrip t.data)
      (by rw [hs]; exact ht.1) (by rw [hs]; exact ht.2)
    rw [hc, hs]
  · intro x y hx hy hxy
    apply string_eq_of_data
    rw [normalize_data x, normalize_data y, ← strip_map_charKey x.data hx.1 hx.2,
      ← strip_map_charKey y.data hy.1 hy.2, hxy]

/-- Witness for the amended C6 at concrete inputs. -/
theorem normalization_idempotence_witness :
    (NoEdgeUnderscore ("a b") ∧
      normalize_title (normalize_title ("a b")) = normalize_title ("a b")) ∧
    (NoEdgeUnderscore ("A_b") ∧ NoEdgeUnderscore ("a b") ∧
      ("A_b" : String).data.map charKey = ("a b" : String).data.map charKey ∧
      normalize_title ("A_b") = normalize_title ("a b")) := by
  refine ⟨⟨by decide, normalization_idempotence_amended.2.1 ("a b") (by decide)⟩,
    ⟨by decide, by decide, by decide,
      normalization_idempotence_amended.2.2 ("A_b") ("a b") (by decide) (by decide)
        (by decide)⟩⟩

/-! ## C9: the segment store never replaces a stored path -/

lemma touchFirst_spec {db : SegDB} {s e : String} {r : SegRow} (now : Nat)
    (h : findSegment db s e = some r) :
    (touchFirst db s e now).map rowCore = db.map rowCore ∧
    ((touchFirst db s e now).map SegRow.use_count).sum =
      (db.map SegRow.use_count).sum + 1 ∧
    findSegment (touchFirst db s e now) s e =
      some { r with use_count := r.use_count + 1, last_used := now } := by
  induction db with
  | nil => simp [findSegment] at h
  | cons x rest ih =>
    by_cases hx : segKeyMatch s e x
    · have hr : r = x := by
        unfold findSegment at h
        rw [List.find?_cons_of_pos _ hx] at h
        exact (Option.some_inj.mp h).symm
      subst hr
      unfold touchFirst
      rw [if_pos hx]
      refine ⟨rfl, ?_, ?_⟩
      · simp [Nat.add_assoc, Nat.add_comm, Nat.add_left_comm]
      · unfold findSegment
        rw [List.find?_cons_of_pos _ (by unfold segKeyMatch at hx ⊢; exact hx)]
    · have hrest : findSegment rest s e = some r := by
        unfold findSegment at h
        rw [List.find?_cons_of_neg _ hx] at h
        exact h
      rcases ih hrest with ⟨h1, h2, h3⟩
      unfold touchFirst
      rw [if_neg hx]
      refine ⟨?_, ?_, ?_⟩
      · simp only [List.map_cons]
        rw [h1]
      · simp only [List.map_cons, List.sum_cons]
        rw [h2]
        omega
      · unfold findSegment
        rw [List.find?_cons_of_neg _ hx]
        exact h3

lemma findSegment_isSome_iff (db : SegDB) (s e : String) :
    (findSegment db s e).isSome ↔
      ∃ c ∈ db.map rowCore, c.1 = s ∧ c.2.1 = e := by
  unfold findSegment
  rw [List.find?_isSome]
  constructor
  · rintro ⟨r, hr, hm⟩
    refine ⟨rowCore r, List.mem_map_of_mem rowCore hr, ?_⟩
    unfold segKeyMatch at hm
    simp only [Bool.and_eq_true, decide_eq_true_eq] at hm
    exact ⟨hm.1, hm.2⟩
  · rintro ⟨c, hc, h1, h2⟩
    rcases List.mem_map.mp hc with ⟨r, hr, hrc⟩
    refine ⟨r, hr, ?_⟩
    unfold segKeyMatch
    simp only [Bool.and_eq_true, decide_eq_true_eq]
    rw [← hrc] at h1 h2
    exact ⟨h1, h2⟩

/-- C9: for a key already present, `save_path_segment` and
`save_path_segments_bulk` only bump `use_count` and refresh `last_used`:
the multiset of rows projected to (key, path, hops, created_at) is
unchanged, the matching row's counters advance, and re-caching a batch of
already-present segments leaves the segment set identical up to
`use_count` (+1 per sub-segment) and `last_used`. -/
theorem segment_store_put_frame :
    (∀ (db : SegDB) (s e : String) (path : List String) (now : Nat),
      (findSegment db s e).isSome →
      (save_path_segment db s e path now).map rowCore = db.map rowCore ∧
      ((save_path_segment db s e path now).map SegRow.use_count).sum =
        (db.map SegRow.use_count).sum + 1 ∧
      ∃ r, findSegment db s e = some r ∧
        findSegment (save_path_segment db s e path now) s e =
          some { r with use_count := r.use_count + 1, last_used := now }) ∧
    (∀ (db : SegDB) (segs : List (String × String × List String)) (now : Nat),
      (∀ q ∈ segs, (findSegment db q.1 q.2.1).isSome) →
      (save_path_segments_bulk db segs now).map rowCore = db.map rowCore ∧
      ((save_path_segments_bulk db segs now).map SegRow.use_count).sum =
        (db.map SegRow.use_count).sum + segs.length) := by
  have single : ∀ (db : SegDB) (s e : String) (path : List String) (now : Nat),
      (findSegment db s e).isSome →
      (save_path_segment db s e path now).map rowCore = db.map rowCore ∧
      ((save_path_segment db s e path now).map SegRow.use_count).sum =
        (db.map SegRow.use_count).sum + 1 ∧
      ∃ r, findSegment db s e = some r ∧
        findSegment (save_path_segment db s e path now) s e =
          some { r with use_count := r.use_count + 1, last_used := now } := by
    intro db s e path now hs
    rcases Option.isSome_iff_exists.mp hs with ⟨r, hr⟩
    have hsave : save_path_segment db s e path now = touchFirst db s e now := by
      unfold save_path_segment
      rw [hr]
    rcases touchFirst_spec now hr with ⟨h1, h2, h3⟩
    rw [hsave]
    exact ⟨h1, h2, r, hr, h3⟩
  refine ⟨single, ?_⟩
  intro db segs now hall
  induction segs generalizing db with
  | nil => simp [save_path_segments_bulk]
  | cons q rest ih =>
    have hq := hall q (List.mem_cons_self q rest)
    rcases single db q.1 q.2.1 q.2.2 now hq with ⟨h1, h2, _⟩
    have hrest : ∀ p ∈ rest, (findSegment (save_path_segment db q.1 q.2.1 q.2.2 now) p.1 p.2.1).isSome := by
      intro p hp
      rw [findSegment_isSome_iff, h1, ← findSegment_isSome_iff]
      exact hall p (List.mem_cons_of_mem q hp)
    have hstep : save_path_segments_bulk db (q :: rest) now =
        save_path_segments_bulk (save_path_segment db q.1 q.2.1 q.2.2 now) rest now := rfl
    rcases ih (save_path_segment db q.1 q.2.1 q.2.2 now) hrest with ⟨ih1, ih2⟩
    rw [hstep]
    constructor
    · rw [ih1, h1]
    · rw [ih2, h2]
      simp only [List.length_cons]
      omega

/-- Witness for C9 at a concrete one-row store. -/
theorem segment_store_put_frame_witness :
    ((findSegment segWitDB "a" "b").isSome ∧
      (save_path_segment segWitDB "a" "b" ["a", "b"] 9).map rowCore =
        segWitDB.map rowCore) ∧
    ((save_path_segments_bulk segWitDB [("a", "b", ["a", "b"])] 9).map
        SegRow.use_count).sum = (segWitDB.map SegRow.use_count).sum + 1 := by
  refine ⟨⟨by decide, (segment_store_put_frame.1 segWitDB "a" "b" (["a", "b"]) 9
    (by decide)).1⟩, ?_⟩
  have h := (segment_store_put_frame.2 segWitDB ([("a", "b", ["a", "b"])]) 9
    (by intro q hq; fin_cases hq; decide)).2
  simpa using h

/-! ## C10: the in-memory LRU never exceeds `max_size` -/

lemma eraseP_length_of_find {α : Type} (p : α → Bool) :
    ∀ (l : List α) (q0 : α), l.find? p = some q0 →
      (l.eraseP p).length + 1 = l.length := by
  intro l
  induction l with
  | nil => intro q0 h; simp at h
  | cons x rest ih =>
    intro q0 h
    by_cases hx : p x = true
    · rw [List.eraseP_cons_of_pos hx]
      rfl
    · rw [List.eraseP_cons_of_neg hx]
      have hrest : rest.find? p = some q0 := by
        rw [List.find?_cons_of_neg _ hx] at h
        exact h
      have hihr := ih q0 hrest
      simp only [List.length_cons]
      omega

lemma moveToEnd_length {κ β : Type} [DecidableEq κ] (l : List (κ × β)) (k : κ) :
    (moveToEnd l k).length = l.length := by
  unfold moveToEnd
  cases h : alookup l k with
  | none => rfl
  | some v =>
    unfold alookup at h
    cases hf : l.find? (fun q => q.1 = k) with
    | none => rw [hf] at h; simp at h
    | some q0 =>
      have hlen := eraseP_length_of_find (fun q => decide (q.1 = k)) l q0 hf
      simp only [List.length_append, List.length_cons, List.length_nil]
      omega

lemma put_internal_maxsize (c : PathCache) (s e : String) (p : List String)
    (u : Bool) : (put_internal c s e p u).max_size = c.max_size := rfl

lemma put_internal_size (c : PathCache) (s e : String) (p : List String)
    (u : Bool) (h : c.mem.length ≤ c.max_size) :
    (put_internal c s e p u).mem.length ≤ c.max_size := by
  unfold put_internal
  by_cases hk : (alookup c.mem (mkKey s e)).isSome
  · simp only [hk, if_true]
    rw [moveToEnd_length]
    exact h
  · simp only [hk, if_false, Bool.false_eq_true]
    by_cases hlen : (c.mem ++ [(mkKey s e, p)]).length > c.max_size
    · simp only [hlen, if_true]
      simp only [List.length_drop, List.length_append, List.length_cons,
        List.length_nil]
      omega
    · simp only [hlen, if_false]
      simp only [List.length_append, List.length_cons, List.length_nil] at hlen ⊢
      omega

lemma foldl_preserves {α : Type} (f : PathCache → α → PathCache)
    (hf : ∀ c a, c.mem.length ≤ c.max_size →
      (f c a).mem.length ≤ (f c a).max_size ∧ (f c a).max_size = c.max_size) :
    ∀ (l : List α) (c : PathCache), c.mem.length ≤ c.max_size →
      (l.foldl f c).mem.length ≤ (l.foldl f c).max_size ∧
      (l.foldl f c).max_size = c.max_size := by
  intro l
  induction l with
  | nil => intro c h; exact ⟨h, rfl⟩
  | cons a t ih =>
    intro c h
    rcases hf c a h with ⟨h1, h2⟩
    rcases ih (f c a) h1 with ⟨h3, h4⟩
    exact ⟨h3, by rw [List.foldl_cons, h4, h2]⟩

lemma put_internal_pres (c : PathCache) (s e : String) (p : List String) (u : Bool)
    (h : c.mem.length ≤ c.max_size) :
    (put_internal c s e p u).mem.length ≤ (put_internal c s e p u).max_size ∧
    (put_internal c s e p u).max_size = c.max_size := by
  rw [put_internal_maxsize]
  exact ⟨put_internal_size c s e p u h, rfl⟩

set_option maxHeartbeats 1000000 in
lemma applyOp_pres : ∀ (c : PathCache) (op : CacheOp), c.mem.length ≤ c.max_size →
    (applyOp c op).mem.length ≤ (applyOp c op).max_size ∧
    (applyOp c op).max_size = c.max_size := by
  intro c op h
  cases op with
  | getOp s e =>
    show ((c.get s e).2.mem.length ≤ (c.get s e).2.max_size) ∧
      (c.get s e).2.max_size = c.max_size
    cases hk : alookup c.mem (mkKey s e) with
    | some p =>
      have he : (c.get s e).2 =
          { c with mem := moveToEnd c.mem (mkKey s e), hits := c.hits + 1 } := by
        simp only [PathCache.get, hk]
      rw [he]
      refine ⟨?_, rfl⟩
      show (moveToEnd c.mem (mkKey s e)).length ≤ c.max_size
      rw [moveToEnd_length]
      exact h
    | none =>
      by_cases hdbp : c.enable_db_persistence = true
      · cases hget : get_path_segment c.db s e c.now with
        | mk o db2 =>
          cases o with
          | some seg =>
            have he : (c.get s e).2 =
                put_internal { c with db := db2, misses := c.misses + 1 } s e seg false := by
              simp only [PathCache.get, hk, hdbp, if_true, hget]
            rw [he]
            exact put_internal_pres _ s e seg false h
          | none =>
            have he : (c.get s e).2 = { c with db := db2, misses := c.misses + 1 } := by
              simp only [PathCache.get, hk, hdbp, if_true, hget]
            rw [he]
            exact ⟨h, rfl⟩
      · have he : (c.get s e).2 = { c with misses := c.misses + 1 } := by
          simp only [PathCache.get, hk, hdbp, if_false, Bool.false_eq_true]
        rw [he]
        exact ⟨h, rfl⟩
  | putOp s e p =>
    exact put_internal_pres c s e p true h
  | bulkPutOp segs =>
    have hput : ∀ (c2 : PathCache) (q : String × String × List String),
        c2.mem.length ≤ c2.max_size →
        ((fun acc (q : String × String × List String) =>
            put_internal acc q.1 q.2.1 q.2.2 false) c2 q).mem.length ≤
          ((fun acc (q : String × String × List String) =>
            put_internal acc q.1 q.2.1 q.2.2 false) c2 q).max_size ∧
        ((fun acc (q : String × String × List String) =>
            put_internal acc q.1 q.2.1 q.2.2 false) c2 q).max_size = c2.max_size :=
      fun c2 q h2 => put_internal_pres c2 q.1 q.2.1 q.2.2 false h2
    have hfold := foldl_preserves
      (fun acc (q : String × String × List String) =>
        put_internal acc q.1 q.2.1 q.2.2 false) hput segs c h
    show ((c.bulk_put segs).mem.length ≤ (c.bulk_put segs).max_size) ∧
      (c.bulk_put segs).max_size = c.max_size
    unfold PathCache.bulk_put
    by_cases hw : c.enable_db_persistence && !segs.isEmpty
    · simp only [hw, if_true]
      exact hfold
    · simp only [hw, if_false, Bool.false_eq_true]
      exact hfold
  | cachePathOp p =>
    have hput : ∀ (c2 : PathCache) (q : String × String × List String),
        c2.mem.length ≤ c2.max_size →
        ((fun acc (q : String × String × List String) =>
            put_internal acc q.1 q.2.1 q.2.2 false) c2 q).mem.length ≤
          ((fun acc (q : String × String × List String) =>
            put_internal acc q.1 q.2.1 q.2.2 false) c2 q).max_size ∧
        ((fun acc (q : String × String × List String) =>
            put_internal acc q.1 q.2.1 q.2.2 false) c2 q).max_size = c2.max_size :=
      fun c2 q h2 => put_internal_pres c2 q.1 q.2.1 q.2.2 false h2
    have hfold := foldl_preserves
      (fun acc (q : String × String × List String) =>
        put_internal acc q.1 q.2.1 q.2.2 false) hput (extract_segments_from_path p) c h
    show ((c.cache_path p).mem.length ≤ (c.cache_path p).max_size) ∧
      (c.cache_path p).max_size = c.max_size
    unfold PathCache.cache_path
    by_cases hl : p.length < 2
    · simp only [hl, if_true]
      exact ⟨h, trivial⟩
    · simp only [hl, if_false]
      unfold PathCache.bulk_put
      by_cases hw : c.enable_db_persistence && !(extract_segments_from_path p).isEmpty
      · simp only [hw, if_true]
        exact hfold
      · simp only [hw, if_false, Bool.false_eq_true]
        exact hfold
  | warmOp n =>
    have hput : ∀ (c2 : PathCache) (r : SegRow),
        c2.mem.length ≤ c2.max_size →
        ((fun acc (r : SegRow) =>
            put_internal acc r.start_page r.end_page r.segment_path false) c2 r).mem.length ≤
          ((fun acc (r : SegRow) =>
            put_internal acc r.start_page r.end_page r.segment_path false) c2 r).max_size ∧
        ((fun acc (r : SegRow) =>
            put_internal acc r.start_page r.end_page r.segment_path false) c2 r).max_size =
          c2.max_size :=
      fun c2 r h2 => put_internal_pres c2 r.start_page r.end_page r.segment_path false h2
    have hfold := foldl_preserves
      (fun acc (r : SegRow) =>
        put_internal acc r.start_page r.end_page r.segment_path false) hput
      ((c.db.mergeSort warmOrder).take n) c h
    show ((c.warm_cache_from_db n).mem.length ≤ (c.warm_cache_from_db n).max_size) ∧
      (c.warm_cache_from_db n).max_size = c.max_size
    unfold PathCache.warm_cache_from_db
    by_cases hdbp : !c.enable_db_persistence
    · simp only [hdbp, if_true]
      exact ⟨h, trivial⟩
    · simp only [hdbp, if_false, Bool.false_eq_true]
      exact hfold

/-- C10: starting from a fresh cache, no sequence of public operations
(`get`, `put`, `bulk_put`, `cache_path`, `warm_cache_from_db`) ever makes
the in-memory LRU exceed `max_size`: each insertion of a new key beyond
the bound immediately evicts the least-recently-used entry. -/
theorem lru_cache_bound (maxs : Nat) (dbp : Bool) (db : SegDB) (now : Nat)
    (ops : List CacheOp) :
    (applyOps (PathCache.init maxs dbp db now) ops).mem.length ≤ maxs := by
  have h0 : (PathCache.init maxs dbp db now).mem.length ≤
      (PathCache.init maxs dbp db now).max_size := by
    show ([] : List ((String × String) × List String)).length ≤ maxs
    simp
  have h := foldl_preserves applyOp applyOp_pres ops (PathCache.init maxs dbp db now) h0
  exact le_of_le_of_eq h.1 h.2

/-! ## C4: the client retry policy is dead code -/

/-- C4 (code bug): because `httpx.TimeoutException`, `ConnectError` and
`ReadError` are subclasses of `httpx.HTTPError`, the
`except httpx.HTTPError: return []` inside `get_wikipedia_links` (and the
matching clause of `resolve_wikipedia_title`) swallows transient transport
failures before the `retry_on_failure` decorator can see them: the call
returns `[]` (resp. `None`) after a single attempt with no backoff sleeps,
contradicting the claimed retry-up-to-three-times policy.  The final
conjunct shows the decorator itself would have retried with sleeps
`[0.5, 1]` had the exception propagated. -/
theorem transport_failure_swallowed_not_retried :
    get_wikipedia_links_run (fun _ => HttpOutcome.raiseExc PyExc.connectErr) =
      ⟨BodyResult.ret (some []), [], 1⟩ ∧
    get_wikipedia_links_run (fun _ => HttpOutcome.raiseExc PyExc.timeoutExc) =
      ⟨BodyResult.ret (some []), [], 1⟩ ∧
    get_wikipedia_links_run (fun _ => HttpOutcome.raiseExc PyExc.httpStatusErr) =
      ⟨BodyResult.ret (some []), [], 1⟩ ∧
    resolve_wikipedia_title_run (fun _ => ResolveOutcome.raiseExc PyExc.connectErr) =
      ⟨BodyResult.ret none, [], 1⟩ ∧
    retry_on_failure 3 (1/2)
        (fun _ => (BodyResult.raised PyExc.connectErr : BodyResult (Option (List String)))) =
      ⟨BodyResult.raised PyExc.connectErr, [1/2, 1], 3⟩ := by
  refine ⟨rfl, rfl, rfl, rfl, ?_⟩
  simp only [retry_on_failure, retryLoop, isRetryTrigger]
  norm_num








/-! ## C8: the k-diverse stop rule -/

section
attribute [local semireducible] Rat.sub Rat.mul Rat.inv Rat.add

/-- Claim C8, counterexample.  The source's in-loop break guard compares the
total depth against `len(new_path) + 2` where `len(new_path)` is the *node
count* of the first path found, while the claim says the loop stops once the
depth exceeds the *length* of that path (its hop count, one less) by more
than 2.  On `kStopOracle` (a 1-hop path `a → b` plus a disjoint 7-hop path
through `p,…,u`) the source engine keeps expanding one level longer than the
claimed rule and returns two paths where the claimed rule returns only one. -/
theorem k_stop_rule_counterexample :
    (find_k_paths_bidirectional kStopOracle "a" "b" 2 (3/10) 6 40).1 =
      some [["a", "b"], ["a", "p", "q", "r", "s2", "t", "u", "b"]] ∧
    (find_k_paths_claimStop kStopOracle "a" "b" 2 (3/10) 6 40).1 =
      some [["a", "b"]] := by
  constructor <;> decide

end

/-- Helper for C8: the source loop and the amended-stop loop coincide. -/
theorem kLoop_eq_amended (o : Oracle) (maxPaths : Nat) (minDiv : ℚ)
    (maxd : Nat) :
    ∀ fuel s, kLoop o maxPaths minDiv maxd fuel s =
      kLoopAmendedStop o maxPaths minDiv maxd fuel s := by
  intro fuel
  induction fuel with
  | zero => intro s; rfl
  | succ n ih =>
    intro s
    simp only [kLoop, kLoopAmendedStop, ih]

/-- Claim C8, amended.  The k-diverse search loop stops expanding when
`maxPaths` diverse paths have been collected, or when the current total
depth exceeds the *node count* of the first path found by more than 2
(equivalently, exceeds its hop length by more than 3), or when the depth
cap is exceeded: the source engine is extensionally equal to the engine
with exactly that stop rule. -/
theorem k_stop_rule_amended (o : Oracle) (start endT : String)
    (maxPaths : Nat) (minDiv : ℚ) (maxd fuel : Nat) :
    find_k_paths_bidirectional o start endT maxPaths minDiv maxd fuel =
      find_k_paths_amendedStop o start endT maxPaths minDiv maxd fuel := by
  simp only [find_k_paths_bidirectional, find_k_paths_amendedStop,
    kLoop_eq_amended]

/-! ## C7 development -/

theorem pathNormSet_nodup (p : List String) : (pathNormSet p).Nodup :=
  List.nodup_dedup _

theorem interLen (A B : List String) (hA : A.Nodup) :
    (A.filter (fun x => x ∈ B)).length = (A.toFinset ∩ B.toFinset).card := by
  rw [← List.toFinset_card_of_nodup (hA.filter _), List.toFinset_filter,
    ← Finset.filter_mem_eq_inter]
  congr 1
  apply Finset.filter_congr
  intro x _
  simp

theorem uniLen (A B : List String) :
    ((A ++ B).dedup).length = (A.toFinset ∪ B.toFinset).card := by
  rw [← List.card_toFinset, List.toFinset_append]

theorem jaccard_finset (a b : List String) :
    jaccard_distance a b =
      1 - (if 0 < ((pathNormSet a).toFinset ∪ (pathNormSet b).toFinset).card
           then (((pathNormSet a).toFinset ∩ (pathNormSet b).toFinset).card : ℚ) /
                (((pathNormSet a).toFinset ∪ (pathNormSet b).toFinset).card : ℚ)
           else 0) := by
  simp only [jaccard_distance, gt_iff_lt]
  rw [interLen _ _ (pathNormSet_nodup a), uniLen]

theorem jaccard_comm (a b : List String) :
    jaccard_distance a b = jaccard_distance b a := by
  rw [jaccard_finset, jaccard_finset b a, Finset.inter_comm, Finset.union_comm]

theorem isDiverse_iff (p : List String) (existing : List (List String)) (dv : ℚ) :
    _is_diverse_path p existing dv = true ↔
      ∀ q ∈ existing, dv ≤ jaccard_distance p q := by
  simp [_is_diverse_path, not_lt]

theorem pairwise_admit (dv : ℚ) (l : List (List String)) (np : List String)
    (h : PairwiseDiverse dv l) (hd : _is_diverse_path np l dv = true) :
    PairwiseDiverse dv (l ++ [np]) := by
  rw [PairwiseDiverse, List.pairwise_append]
  refine ⟨h, List.pairwise_singleton _ _, ?_⟩
  intro a ha b hb
  rw [List.mem_singleton] at hb
  have hj := (isDiverse_iff np l dv).1 hd a ha
  rw [jaccard_comm] at hj
  rw [hb]
  exact hj

theorem kFwdScan_found (dv : ℚ) (cur : String) (path : List String) (d : Nat) :
    ∀ (links : List String) (s : KState), PairwiseDiverse dv s.found →
      PairwiseDiverse dv (kFwdScan dv cur path d links s).found := by
  intro links
  induction links with
  | nil => intro s h; exact h
  | cons link rest ih =>
    intro s h
    rw [kFwdScan]
    apply ih
    dsimp only
    split
    · split
      · cases hfl : s.firstLen <;> dsimp only <;> split <;>
          first
            | (apply pairwise_admit dv _ _ h; simp_all)
            | exact h
      · cases hfl : s.firstLen <;> dsimp only <;> split <;>
          first
            | (apply pairwise_admit dv _ _ h; simp_all)
            | exact h
    · split
      · exact h
      · exact h

theorem kBwdScan_found (o : Oracle) (dv : ℚ) (cur : String) (path : List String)
    (d : Nat) :
    ∀ (links : List String) (s : KState), PairwiseDiverse dv s.found →
      PairwiseDiverse dv (kBwdScan o dv cur path d links s).found := by
  intro links
  induction links with
  | nil => intro s h; exact h
  | cons link rest ih =>
    intro s h
    rw [kBwdScan]
    dsimp only
    split
    · split
      · exact ih _ h
      · apply ih
        dsimp only
        split <;> (try split) <;> (try cases hfl : s.firstLen) <;> dsimp only <;>
          first
            | (apply pairwise_admit dv _ _ h; simp_all)
            | exact h
            | simp_all
    · apply ih
      split
      · exact h
      · exact h

theorem kFinish_some (s : KState) (ps : List (List String))
    (h : (kFinish s).1 = some ps) :
    ps = List.insertionSort
      (fun a b : List String => a.length ≤ b.length) s.found := by
  simp only [kFinish] at h
  split at h
  · exact absurd h (by simp)
  · exact (Option.some.inj h).symm

theorem diverse_symmetric (dv : ℚ) :
    Symmetric (fun a b : List String => dv ≤ jaccard_distance a b) := by
  intro a b hab
  rw [jaccard_comm] at hab
  exact hab

theorem kFinish_diverse (dv : ℚ) (s : KState) (ps : List (List String))
    (h : PairwiseDiverse dv s.found) (hres : (kFinish s).1 = some ps) :
    PairwiseDiverse dv ps ∧
      ps.Sorted (fun a b : List String => a.length ≤ b.length) := by
  have hps := kFinish_some s ps hres
  subst hps
  constructor
  · exact ((List.perm_insertionSort _ _).pairwise_iff
      (fun hab => diverse_symmetric dv hab)).2 h
  · haveI : IsTotal (List String) (fun a b : List String => a.length ≤ b.length) :=
      ⟨fun a b => Nat.le_total a.length b.length⟩
    haveI : IsTrans (List String) (fun a b : List String => a.length ≤ b.length) :=
      ⟨fun a b c hab hbc => Nat.le_trans hab hbc⟩
    exact List.sorted_insertionSort _ _

theorem kLoop_diverse (o : Oracle) (mp : Nat) (dv : ℚ) (maxd : Nat) :
    ∀ (fuel : Nat) (s : KState) (ps : List (List String)),
      PairwiseDiverse dv s.found →
      (kLoop o mp dv maxd fuel s).1 = some ps →
      PairwiseDiverse dv ps ∧
        ps.Sorted (fun a b : List String => a.length ≤ b.length) := by
  intro fuel
  induction fuel with
  | zero => intro s ps _ hres; exact absurd hres (by simp [kLoop])
  | succ n ih =>
    intro s ps h hres
    rw [kLoop] at hres
    cases hfl : s.firstLen <;> rw [hfl] at hres <;>
      (try simp only [] at hres) <;>
      repeat' (first | (split at hres) | (dsimp only at hres))
    all_goals
      first
        | exact kFinish_diverse dv s ps h hres
        | (refine ih _ _ ?_ hres; first
            | exact h
            | exact kFwdScan_found dv _ _ _ _ _ h
            | exact kBwdScan_found o dv _ _ _ _ _ h)
        | simp_all

/-- Claim C7: every list of paths returned by `find_k_paths_bidirectional`
is pairwise Jaccard-diverse — any two distinct members are at Jaccard
distance at least `min_diversity` over their sets of normalized titles,
because `_is_diverse_path` admits a candidate only against every
already-admitted path — and the returned list is sorted by length
ascending. -/
theorem k_diverse_admission (o : Oracle) (start endT : String)
    (maxPaths : Nat) (minDiv : ℚ) (maxd fuel : Nat) (ps : List (List String))
    (hres : (find_k_paths_bidirectional o start endT maxPaths minDiv maxd
        fuel).1 = some ps) :
    (∀ i j (hi : i < ps.length) (hj : j < ps.length), i ≠ j →
        minDiv ≤ jaccard_distance (ps.get ⟨i, hi⟩) (ps.get ⟨j, hj⟩)) ∧
    ps.Sorted (fun a b : List String => a.length ≤ b.length) := by
  have key : PairwiseDiverse minDiv ps ∧
      ps.Sorted (fun a b : List String => a.length ≤ b.length) := by
    rw [find_k_paths_bidirectional] at hres
    split at hres
    · have hps : ps = [[start]] := (Option.some.inj hres).symm
      subst hps
      exact ⟨List.pairwise_singleton _ _, List.sorted_singleton _⟩
    · refine kLoop_diverse o maxPaths minDiv maxd fuel _ ps ?_ hres
      exact List.Pairwise.nil
  refine ⟨?_, key.2⟩
  intro i j hi hj hij
  have hp := List.pairwise_iff_get.1 key.1
  rcases Nat.lt_or_ge i j with hlt | hge
  · exact hp ⟨i, hi⟩ ⟨j, hj⟩ hlt
  · have hj2 : j < i := lt_of_le_of_ne hge (fun e => hij e.symm)
    have hsym := hp ⟨j, hj⟩ ⟨i, hi⟩ hj2
    rw [jaccard_comm]
    exact hsym

section
attribute [local semireducible] Rat.sub Rat.mul Rat.inv Rat.add

/-- Witness for C7 on `kDivOracle`: the run returns the two paths
`[a,b]` and `[a,p,b]`, whose Jaccard distance is `1/3 ≥ 3/10`. -/
theorem k_diverse_admission_witness :
    (3/10 : ℚ) ≤ jaccard_distance ["a", "b"] ["a", "p", "b"] :=
  (k_diverse_admission kDivOracle "a" "b" 3 (3/10) 6 40
      [["a", "b"], ["a", "p", "b"]] (by decide)).1 0 1 (by decide) (by decide)
    (by decide)

end

/-! ## C3 development -/

theorem fwdScan_log (cur : String) (curPath : List String) (d : Nat) :
    ∀ (links : List String) (s : PFState),
      ((fwdScan cur curPath d links s).1 = none ∧
        (fwdScan cur curPath d links s).2.log = s.log) ∨
      (∃ p, (fwdScan cur curPath d links s).1 = some p ∧
        (fwdScan cur curPath d links s).2.log = s.log ++ [Ev.retEv true p]) := by
  intro links
  induction links with
  | nil => intro s; exact Or.inl ⟨rfl, rfl⟩
  | cons link rest ih =>
    intro s
    rw [fwdScan]
    dsimp only
    split
    · exact Or.inr ⟨_, rfl, rfl⟩
    · split
      · exact ih s
      · exact ih _

theorem bwdScan_log (o : Oracle) (cur : String) (curPath : List String)
    (d : Nat) :
    ∀ (links : List String) (s : PFState), ∃ l0, PreLog l0 ∧
      (((bwdScan o cur curPath d links s).1 = none ∧
        (bwdScan o cur curPath d links s).2.log = s.log ++ l0) ∨
      (∃ p, (bwdScan o cur curPath d links s).1 = some p ∧
        (bwdScan o cur curPath d links s).2.log =
          s.log ++ l0 ++ [Ev.validateEv [] p true, Ev.retEv false p])) := by
  intro links
  induction links with
  | nil =>
    intro s
    exact ⟨[], fun e he => absurd he (List.not_mem_nil e), Or.inl ⟨rfl, by simp [bwdScan]⟩⟩
  | cons link rest ih =>
    intro s
    rw [bwdScan]
    dsimp only
    split
    · split
      · rename_i hvt
        refine ⟨[], fun e he => absurd he (List.not_mem_nil e), Or.inr ⟨_, rfl, ?_⟩⟩
        dsimp only
        simp [hvt]
      · rename_i hv
        have hb : (validate_path o []
            (_reconstruct_forward_path s.fp.length s.fp
              (normalize_title link) ++ curPath)).1 = false := by
          revert hv
          cases (validate_path o []
            (_reconstruct_forward_path s.fp.length s.fp
              (normalize_title link) ++ curPath)).1 <;> simp
        obtain ⟨l0, hpre, hcase⟩ := ih { s with
          memo := (validate_path o []
            (_reconstruct_forward_path s.fp.length s.fp
              (normalize_title link) ++ curPath)).2,
          log := s.log ++ [Ev.validateEv []
            (_reconstruct_forward_path s.fp.length s.fp
              (normalize_title link) ++ curPath)
            (validate_path o []
              (_reconstruct_forward_path s.fp.length s.fp
                (normalize_title link) ++ curPath)).1] }
        refine ⟨Ev.validateEv []
            (_reconstruct_forward_path s.fp.length s.fp
              (normalize_title link) ++ curPath)
            (validate_path o []
              (_reconstruct_forward_path s.fp.length s.fp
                (normalize_title link) ++ curPath)).1 :: l0, ?_, ?_⟩
        · intro e he
          rcases List.mem_cons.1 he with he | he
          · subst he
            exact ⟨_, by rw [hb]⟩
          · exact hpre e he
        · rcases hcase with ⟨hn, hl⟩ | ⟨p, hp, hl⟩
          · refine Or.inl ⟨hn, ?_⟩
            rw [hl]
            simp
          · refine Or.inr ⟨p, hp, ?_⟩
            rw [hl]
            simp
    · split
      · exact ih s
      · obtain ⟨l0, hpre, hcase⟩ := ih _
        exact ⟨l0, hpre, hcase⟩

theorem PreLog_append {a b : List Ev} (ha : PreLog a) (hb : PreLog b) :
    PreLog (a ++ b) := by
  intro e he
  rcases List.mem_append.1 he with h | h
  · exact ha e h
  · exact hb e h

theorem PreLog_nil : PreLog [] :=
  fun e he => absurd he (List.not_mem_nil e)

theorem bfsLoop_log (o : Oracle) (maxd : Nat) :
    ∀ (fuel : Nat) (s : PFState), ∃ l0, PreLog l0 ∧
      (((bfsLoop o maxd fuel s).1 = none ∧
        (bfsLoop o maxd fuel s).2.log = s.log ++ l0) ∨
      (∃ p, (bfsLoop o maxd fuel s).1 = some p ∧
        ((bfsLoop o maxd fuel s).2.log = s.log ++ l0 ++ [Ev.retEv true p] ∨
         (bfsLoop o maxd fuel s).2.log =
           s.log ++ l0 ++ [Ev.validateEv [] p true, Ev.retEv false p]))) := by
  intro fuel
  induction fuel with
  | zero => intro s; exact ⟨[], PreLog_nil, Or.inl ⟨rfl, by simp [bfsLoop]⟩⟩
  | succ n ih =>
    intro s
    rw [bfsLoop]
    dsimp only
    split
    · split
      · split
        · exact ⟨[], PreLog_nil, Or.inl ⟨rfl, by simp⟩⟩
        · rename_i cur path d rest heqq
          split
          · exact ih _
          · rename_i links hlinks
            split
            · rename_i p s3 heq
              rcases fwdScan_log cur path d links _ with ⟨hn, _⟩ | ⟨q, hq, hlog⟩
              · rw [heq] at hn; exact absurd hn (by simp)
              · rw [heq] at hq hlog
                refine ⟨[], PreLog_nil, Or.inr ⟨p, rfl, Or.inl ?_⟩⟩
                have hqp : q = p := (by simpa using hq : p = q).symm
                subst hqp
                simpa using hlog
            · rename_i s3 heq
              rcases fwdScan_log cur path d links _ with ⟨hn, hlog⟩ | ⟨q, hq, _⟩
              · rw [heq] at hn hlog
                obtain ⟨l0, hpre, hcase⟩ := ih s3
                refine ⟨l0, hpre, ?_⟩
                rcases hcase with ⟨h1, h2⟩ | ⟨p, hp, h2⟩
                · refine Or.inl ⟨h1, ?_⟩
                  rw [h2, hlog]
                · refine Or.inr ⟨p, hp, ?_⟩
                  rcases h2 with h2 | h2
                  · exact Or.inl (by rw [h2, hlog])
                  · exact Or.inr (by rw [h2, hlog])
              · rw [heq] at hq; exact absurd hq (by simp)
      · split
        · split
          · exact ⟨[], PreLog_nil, Or.inl ⟨rfl, by simp⟩⟩
          · rename_i cur path d rest heqq
            split
            · rename_i p s2 heq
              rcases bwdScan_log o cur path d
                  (get_wikipedia_backlinks o cur 300) _ with ⟨l0, hpre, hcase⟩
              rcases hcase with ⟨hn, _⟩ | ⟨q, hq, hlog⟩
              · rw [heq] at hn; exact absurd hn (by simp)
              · rw [heq] at hq hlog
                refine ⟨l0, hpre, Or.inr ⟨p, rfl, Or.inr ?_⟩⟩
                have hqp : q = p := (by simpa using hq : p = q).symm
                subst hqp
                simpa using hlog
            · rename_i s2 heq
              rcases bwdScan_log o cur path d
                  (get_wikipedia_backlinks o cur 300) _ with ⟨l0, hpre, hcase⟩
              rcases hcase with ⟨hn, hlog⟩ | ⟨q, hq, _⟩
              · rw [heq] at hn hlog
                obtain ⟨l1, hpre1, hcase1⟩ := ih s2
                refine ⟨l0 ++ l1, PreLog_append hpre hpre1, ?_⟩
                rcases hcase1 with ⟨h1, h2⟩ | ⟨p, hp, h2⟩
                · refine Or.inl ⟨h1, ?_⟩
                  rw [h2, hlog]
                  simp
                · refine Or.inr ⟨p, hp, ?_⟩
                  rcases h2 with h2 | h2
                  · refine Or.inl ?_
                    rw [h2, hlog]
                    simp
                  · refine Or.inr ?_
                    rw [h2, hlog]
                    simp
              · rw [heq] at hq; exact absurd hq (by simp)
        · exact ih s
    · exact ⟨[], PreLog_nil, Or.inl ⟨rfl, by simp⟩⟩

/-- Claim C3: in every `find_path_bidirectional` run (on distinct
normalized endpoints), each `_validate_path` call happens with the
per-search edge memo cleared (every validation event in the log carries
the empty memo); a merged path whose validation fails is never returned —
such events are interior `validateEv [] q false` entries and the search
continues; a path returned from a forward-discovered meeting point carries
no validation at all (`retEv true p` with no validation of `p`); a path
returned from a backward-discovered meeting point is immediately preceded
by its own successful cleared-memo validation
(`validateEv [] p true, retEv false p`). -/
theorem backward_meeting_validation (o : Oracle) (start endT : String)
    (maxd fuel : Nat)
    (hne : normalize_title start ≠ normalize_title endT) :
    ∃ l0, PreLog l0 ∧
      (((find_path_bidirectional o start endT maxd fuel).1 = none ∧
        (find_path_bidirectional o start endT maxd fuel).2.log = l0) ∨
      (∃ p, (find_path_bidirectional o start endT maxd fuel).1 = some p ∧
        ((find_path_bidirectional o start endT maxd fuel).2.log =
            l0 ++ [Ev.retEv true p] ∨
         (find_path_bidirectional o start endT maxd fuel).2.log =
            l0 ++ [Ev.validateEv [] p true, Ev.retEv false p]))) := by
  rw [find_path_bidirectional, if_neg hne]
  have h := bfsLoop_log o maxd fuel (initPFState start endT)
  simpa using h

/-- Witness for C3 on `staleBacklinkOracle`, where the first backward
meeting produces a stale merged path (`validateEv [] [a,c,w,b] false`),
the search continues, and the returned path `[a,x,b]` is validated with a
cleared memo right before being returned. -/
theorem backward_meeting_validation_witness :
    ∃ l0, PreLog l0 ∧
      (((find_path_bidirectional staleBacklinkOracle "a" "b" 6 40).1 = none ∧
        (find_path_bidirectional staleBacklinkOracle "a" "b" 6 40).2.log = l0) ∨
      (∃ p, (find_path_bidirectional staleBacklinkOracle "a" "b" 6 40).1 =
          some p ∧
        ((find_path_bidirectional staleBacklinkOracle "a" "b" 6 40).2.log =
            l0 ++ [Ev.retEv true p] ∨
         (find_path_bidirectional staleBacklinkOracle "a" "b" 6 40).2.log =
            l0 ++ [Ev.validateEv [] p true, Ev.retEv false p]))) :=
  backward_meeting_validation staleBacklinkOracle "a" "b" 6 40 (by decide)

/-! ## C5 development -/

theorem eraseP_append_perm {α : Type} (p : α → Bool) :
    ∀ (l : List α) (a : α), l.find? p = some a →
      List.Perm (l.eraseP p ++ [a]) l := by
  intro l
  induction l with
  | nil => intro a h; simp at h
  | cons x xs ih =>
    intro a h
    by_cases hx : p x
    · rw [List.find?_cons_of_pos _ hx] at h
      have hax : a = x := by simpa using h.symm
      subst hax
      rw [List.eraseP_cons_of_pos hx]
      exact List.perm_append_singleton a xs
    · rw [List.find?_cons_of_neg _ hx] at h
      rw [List.eraseP_cons_of_neg hx]
      simpa using (ih a h).cons x

theorem perm_moveToEnd {κ β : Type} [DecidableEq κ] (l : List (κ × β)) (k : κ) :
    List.Perm (moveToEnd l k) l := by
  unfold moveToEnd
  cases hl : alookup l k with
  | none => exact List.Perm.refl l
  | some v =>
    unfold alookup at hl
    cases hf : l.find? (fun q => q.1 = k) with
    | none => rw [hf] at hl; simp at hl
    | some q =>
      rw [hf] at hl
      simp at hl
      have hq1 : q.1 = k := by simpa using List.find?_some hf
      have hq : q = (k, v) := by
        cases q
        simp_all
      exact eraseP_append_perm _ l (k, v) (hq ▸ hf)

theorem alookup_mem {κ β : Type} [DecidableEq κ] {l : List (κ × β)} {k : κ}
    {v : β} (h : alookup l k = some v) : (k, v) ∈ l := by
  unfold alookup at h
  cases hf : l.find? (fun q => q.1 = k) with
  | none => rw [hf] at h; simp at h
  | some q =>
    rw [hf] at h
    simp at h
    have hq1 : q.1 = k := by simpa using List.find?_some hf
    have hm := List.mem_of_find?_eq_some hf
    have hq : q = (k, v) := by cases q; simp_all
    exact hq ▸ hm

theorem get_dbp_false (c : PathCache) (hdb : c.enable_db_persistence = false)
    (s e : String) :
    (c.get s e).1 = alookup c.mem (mkKey s e) ∧
    (c.get s e).2.mem = moveToEnd c.mem (mkKey s e) ∧
    (c.get s e).2.enable_db_persistence = false := by
  cases hl : alookup c.mem (mkKey s e) with
  | some p =>
    have h1 : c.get s e =
        (some p, { c with mem := moveToEnd c.mem (mkKey s e),
                          hits := c.hits + 1 }) := by
      unfold PathCache.get
      dsimp only
      rw [hl]
    rw [h1]
    exact ⟨rfl, rfl, hdb⟩
  | none =>
    have h1 : c.get s e = (none, { c with misses := c.misses + 1 }) := by
      unfold PathCache.get
      dsimp only
      rw [hl, hdb]
      simp
    rw [h1]
    refine ⟨rfl, ?_, hdb⟩
    simp [moveToEnd, hl]

/-- The conclusion of the amended compose claim, relative to the initial
memory tier. -/
def GoodCompose (mem0 : List ((String × String) × List String))
    (s e : String) (p : List String) (m : List SegSource) : Prop :=
  p.head?.map normalize_title = some s ∧
  p.getLast?.map normalize_title = some e ∧
  (∀ uv ∈ pathEdges p, PairInSegs mem0 uv.1 uv.2) ∧
  metaChainFrom s e m ∧
  ((m.map SegSource.from_page) ++ [e]).Nodup

theorem pathEdges_cons_sub {h : String} {t : List String} :
    pathEdges t ⊆ pathEdges (h :: t) := by
  intro uv huv
  cases t with
  | nil => simp [pathEdges] at huv
  | cons y ys => exact List.mem_cons_of_mem _ huv

theorem pathEdges_append_mem {a b : List String} {uv : String × String}
    (hb : b ≠ []) (h : uv ∈ pathEdges (a ++ b)) :
    uv ∈ pathEdges a ∨
      (some uv.1 = a.getLast? ∧ some uv.2 = b.head?) ∨
      uv ∈ pathEdges b := by
  induction a with
  | nil => exact Or.inr (Or.inr (by simpa using h))
  | cons x xs ih =>
    cases xs with
    | nil =>
      cases b with
      | nil => exact absurd rfl hb
      | cons y ys =>
        simp only [List.singleton_append, pathEdges] at h
        rcases List.mem_cons.1 h with h | h
        · subst h
          exact Or.inr (Or.inl ⟨by simp, by simp⟩)
        · exact Or.inr (Or.inr h)
    | cons x2 xs2 =>
      simp only [List.cons_append, pathEdges] at h
      rcases List.mem_cons.1 h with h | h
      · subst h
        exact Or.inl (by simp [pathEdges])
      · rcases ih (by simpa using h) with h | ⟨h1, h2⟩ | h
        · exact Or.inl (pathEdges_cons_sub h)
        · refine Or.inr (Or.inl ⟨?_, h2⟩)
          rw [h1]
          simp
        · exact Or.inr (Or.inr h)

theorem metaChainFrom_snoc {s cur : String} {meta : List SegSource}
    (h : metaChainFrom s cur meta) (m : SegSource) (hm : m.from_page = cur) :
    metaChainFrom s m.to_page (meta ++ [m]) := by
  induction meta generalizing s with
  | nil =>
    simp only [metaChainFrom] at h
    subst h
    exact ⟨hm, rfl⟩
  | cons q rest ih =>
    obtain ⟨h1, h2⟩ := h
    exact ⟨h1, ih h2⟩

theorem CEntryInv_mono {mem0 : List ((String × String) × List String)}
    {s : String} {v v2 : List String} (hsub : v ⊆ v2) {en : ComposeEntry}
    (h : CEntryInv mem0 s v en) : CEntryInv mem0 s v2 en := by
  obtain ⟨cur, path, hops, meta⟩ := en
  obtain ⟨h1, h2, h4, h5, h6, h7⟩ := h
  exact ⟨h1, h2, h4, h5, h6, fun x hx => hsub (h7 x hx)⟩

theorem segment_glue (mem0 : List ((String × String) × List String))
    (hwf : WFMem mem0) {cur nxt : String} {seg path : List String} {s : String}
    (hmem : ((mkKey cur nxt), seg) ∈ mem0)
    (h1 : path.head? = some s)
    (h2 : path.getLast?.map normalize_title = some (normalize_title cur))
    (hedges : ∀ uv ∈ pathEdges path, PairInSegs mem0 uv.1 uv.2) :
    (path ++ seg.drop 1).head? = some s ∧
    (path ++ seg.drop 1).getLast?.map normalize_title =
      some (normalize_title nxt) ∧
    (∀ uv ∈ pathEdges (path ++ seg.drop 1), PairInSegs mem0 uv.1 uv.2) := by
  obtain ⟨hk1, hk2, hlen, hnod, hhead, hlast⟩ := hwf.2 _ hmem
  obtain ⟨a, b, t, hseg⟩ : ∃ a b t, seg = a :: b :: t := by
    match seg, hlen with
    | a :: b :: t, _ => exact ⟨a, b, t, rfl⟩
  subst hseg
  have hha : normalize_title a = normalize_title cur := by
    simpa [mkKey] using hhead
  refine ⟨?_, ?_, ?_⟩
  · rw [List.head?_append, h1]
    rfl
  · rw [List.getLast?_append]
    have hgl : (a :: b :: t).getLast? = (b :: t).getLast? :=
      List.getLast?_cons_cons
    rw [hgl] at hlast
    simp only [List.drop_succ_cons, List.drop_zero]
    cases hbt : (b :: t).getLast? with
    | none => simp at hbt
    | some z =>
      rw [hbt] at hlast
      simpa [mkKey] using hlast
  · intro uv huv
    rcases pathEdges_append_mem (by simp) huv with h | ⟨hg1, hg2⟩ | h
    · exact hedges uv h
    · refine ⟨mkKey cur nxt, a :: b :: t, a, b, hmem, by simp [pathEdges], ?_, ?_⟩
      · rw [hha]
        have hpl : path.getLast? = some uv.1 := hg1.symm
        rw [hpl] at h2
        simpa using h2.symm
      · have hb : uv.2 = b := by
          simp only [List.drop_succ_cons, List.drop_zero] at hg2
          exact (by simpa using hg2.symm : b = uv.2).symm
        rw [hb]
    · refine ⟨mkKey cur nxt, a :: b :: t, uv.1, uv.2, hmem, ?_, rfl, rfl⟩
      apply pathEdges_cons_sub
      simpa using h

theorem nodup_snoc {M : List String} {x : String} (h : M.Nodup)
    (hn : x ∉ M) : (M ++ [x]).Nodup := by
  rw [List.nodup_append]
  refine ⟨h, List.nodup_singleton _, ?_⟩
  intro a ha hb
  rw [List.mem_singleton] at hb
  subst hb
  exact hn ha

/-- Post-condition of one `composeScan` sweep, relative to the initial
memory `mem0`, the search endpoints and the visited set before the sweep. -/
def ScanPost (mem0 : List ((String × String) × List String)) (s endP : String)
    (visited : List String)
    (X : (Option (List String × List SegSource)) ×
      PathCache × List String × List ComposeEntry) : Prop :=
  match X with
  | (some r, c1, _, _) =>
      List.Perm c1.mem mem0 ∧ c1.enable_db_persistence = false ∧
      r.1.head? = some s ∧
      r.1.getLast?.map normalize_title = some (normalize_title endP) ∧
      (∀ uv ∈ pathEdges r.1, PairInSegs mem0 uv.1 uv.2) ∧
      metaChainFrom s endP r.2 ∧
      ((r.2.map SegSource.from_page) ++ [endP]).Nodup
  | (none, c1, visited1, queue1) =>
      List.Perm c1.mem mem0 ∧ c1.enable_db_persistence = false ∧
      visited ⊆ visited1 ∧
      (∀ en ∈ queue1, CEntryInv mem0 s visited1 en)

theorem ScanPost_mono {mem0 : List ((String × String) × List String)}
    {s endP : String} {v v2 : List String}
    {X : (Option (List String × List SegSource)) ×
      PathCache × List String × List ComposeEntry}
    (hsub : v ⊆ v2) (h : ScanPost mem0 s endP v2 X) :
    ScanPost mem0 s endP v X := by
  obtain ⟨o, c1, v1, q1⟩ := X
  cases o with
  | some r => exact h
  | none => exact ⟨h.1, h.2.1, fun x hx => h.2.2.1 (hsub hx), h.2.2.2⟩

theorem composeScan_spec (mem0 : List ((String × String) × List String))
    (hwf : WFMem mem0) (s endP : String) (cur : String) (path : List String)
    (hops : Nat) (meta : List SegSource) :
    ∀ (conn : List String) (c : PathCache) (visited : List String)
      (acc : List ComposeEntry),
      List.Perm c.mem mem0 → c.enable_db_persistence = false →
      CEntryInv mem0 s visited (cur, path, hops, meta) →
      (∀ en ∈ acc, CEntryInv mem0 s visited en) →
      ScanPost mem0 s endP visited
        (composeScan endP cur path hops meta conn c visited acc) := by
  intro conn
  induction conn with
  | nil =>
    intro c visited acc hperm hdbp hcur hacc
    exact ⟨hperm, hdbp, List.Subset.refl _, hacc⟩
  | cons nxt rest ih =>
    intro c visited acc hperm hdbp hcur hacc
    rw [composeScan]
    dsimp only
    by_cases hv : nxt ∈ visited
    · rw [if_pos hv]
      exact ih c visited acc hperm hdbp hcur hacc
    · rw [if_neg hv]
      obtain ⟨hg1, hg2, hg3⟩ := get_dbp_false c hdbp cur nxt
      cases hgr : c.get cur nxt with
      | mk o1 c1 =>
        rw [hgr] at hg1 hg2 hg3
        have hperm1 : List.Perm c1.mem mem0 := by
          rw [hg2]
          exact (perm_moveToEnd c.mem (mkKey cur nxt)).trans hperm
        cases o1 with
        | none =>
          dsimp only
          exact ih c1 visited acc hperm1 hg3 hcur hacc
        | some seg =>
          dsimp only
          by_cases hse : seg.isEmpty
          · rw [if_pos hse]
            exact ih c1 visited acc hperm1 hg3 hcur hacc
          · rw [if_neg hse]
            have hlk : alookup c.mem (mkKey cur nxt) = some seg := hg1.symm
            have hmem : ((mkKey cur nxt), seg) ∈ mem0 :=
              hperm.mem_iff.1 (alookup_mem hlk)
            obtain ⟨hcur1, hcur2, hcur4, hcur5, hcur6, hcur7⟩ := hcur
            obtain ⟨hnp1, hnp2, hnp3⟩ :=
              segment_glue mem0 hwf hmem hcur1 hcur2 hcur4
            have hnot : nxt ∉ (meta.map SegSource.from_page) ++ [cur] :=
              fun hmem2 => hv (hcur7 nxt hmem2)
            by_cases hne : nxt = endP
            · rw [if_pos hne]
              subst hne
              refine ⟨hperm1, hg3, hnp1, hnp2, hnp3, ?_, ?_⟩
              · dsimp only
                exact metaChainFrom_snoc hcur5
                  { from_page := cur, to_page := nxt, source := "cache",
                    cached_at := c1.get_segment_timestamp cur nxt } rfl
              · dsimp only
                have hmap : (meta ++
                    [({ from_page := cur, to_page := nxt, source := "cache",
                        cached_at := c1.get_segment_timestamp cur nxt } :
                      SegSource)]).map SegSource.from_page =
                    meta.map SegSource.from_page ++ [cur] := by simp
                rw [hmap]
                exact nodup_snoc hcur6 hnot
            · rw [if_neg hne]
              have hsub : visited ⊆ visited ++ [nxt] := by
                intro x hx
                exact List.mem_append.2 (Or.inl hx)
              have hnew : CEntryInv mem0 s (visited ++ [nxt])
                  (nxt, path ++ seg.drop 1, hops + 1, meta ++
                    [({ from_page := cur, to_page := nxt, source := "cache",
                        cached_at := c1.get_segment_timestamp cur nxt } :
                      SegSource)]) := by
                refine ⟨hnp1, hnp2, hnp3, ?_, ?_, ?_⟩
                · exact metaChainFrom_snoc hcur5
                    { from_page := cur, to_page := nxt, source := "cache",
                      cached_at := c1.get_segment_timestamp cur nxt } rfl
                · have hmap : (meta ++
                      [({ from_page := cur, to_page := nxt, source := "cache",
                          cached_at := c1.get_segment_timestamp cur nxt } :
                        SegSource)]).map SegSource.from_page =
                      meta.map SegSource.from_page ++ [cur] := by simp
                  rw [hmap]
                  exact nodup_snoc hcur6 hnot
                · intro x hx
                  have hmap : (meta ++
                      [({ from_page := cur, to_page := nxt, source := "cache",
                          cached_at := c1.get_segment_timestamp cur nxt } :
                        SegSource)]).map SegSource.from_page =
                      meta.map SegSource.from_page ++ [cur] := by simp
                  rw [hmap, List.append_assoc] at hx
                  rcases List.mem_append.1 hx with hx | hx
                  · exact hsub (hcur7 x (List.mem_append.2 (Or.inl hx)))
                  · rcases List.mem_append.1 hx with hx | hx
                    · rw [List.mem_singleton] at hx
                      subst hx
                      exact hsub (hcur7 x (List.mem_append.2 (Or.inr (by simp))))
                    · rw [List.mem_singleton] at hx
                      subst hx
                      exact List.mem_append.2 (Or.inr (by simp))
              have hres := ih c1 (visited ++ [nxt])
                (acc ++ [(nxt, path ++ seg.drop 1, hops + 1, meta ++
                    [({ from_page := cur, to_page := nxt, source := "cache",
                        cached_at := c1.get_segment_timestamp cur nxt } :
                      SegSource)])])
                hperm1 hg3
                (CEntryInv_mono hsub ⟨hcur1, hcur2, hcur4, hcur5, hcur6, hcur7⟩)
                (by
                  intro en hen
                  rcases List.mem_append.1 hen with hen | hen
                  · exact CEntryInv_mono hsub (hacc en hen)
                  · rw [List.mem_singleton] at hen
                    subst hen
                    exact hnew)
              exact ScanPost_mono hsub hres

/-- Post-condition of the compose BFS, relative to the initial memory. -/
def BFSPost (mem0 : List ((String × String) × List String)) (s endP : String)
    (X : (Option (List String × List SegSource)) × PathCache) : Prop :=
  match X with
  | (some r, c1) =>
      List.Perm c1.mem mem0 ∧ c1.enable_db_persistence = false ∧
      r.1.head? = some s ∧
      r.1.getLast?.map normalize_title = some (normalize_title endP) ∧
      (∀ uv ∈ pathEdges r.1, PairInSegs mem0 uv.1 uv.2) ∧
      metaChainFrom s endP r.2 ∧
      ((r.2.map SegSource.from_page) ++ [endP]).Nodup
  | (none, c1) =>
      List.Perm c1.mem mem0 ∧ c1.enable_db_persistence = false

theorem composeBFS_spec (mem0 : List ((String × String) × List String))
    (hwf : WFMem mem0) (s endP : String) (maxHops : Nat) :
    ∀ (fuel : Nat) (c : PathCache) (queue : List ComposeEntry)
      (visited : List String),
      List.Perm c.mem mem0 → c.enable_db_persistence = false →
      (∀ en ∈ queue, CEntryInv mem0 s visited en) →
      BFSPost mem0 s endP (composeBFS endP maxHops fuel c queue visited) := by
  intro fuel
  induction fuel with
  | zero =>
    intro c queue visited hperm hdbp hq
    exact ⟨hperm, hdbp⟩
  | succ n ih =>
    intro c queue visited hperm hdbp hq
    cases queue with
    | nil => exact ⟨hperm, hdbp⟩
    | cons en rest =>
      obtain ⟨cur, path, hops, meta⟩ := en
      rw [composeBFS]
      dsimp only
      split
      · exact ih c rest visited hperm hdbp
          (fun e he => hq e (List.mem_cons_of_mem _ he))
      · have hscan := composeScan_spec mem0 hwf s endP cur path hops meta
          (c.get_connected_nodes cur "forward") c visited rest hperm hdbp
          (hq _ (List.mem_cons_self _ _))
          (fun e he => hq e (List.mem_cons_of_mem _ he))
        rcases hE : composeScan endP cur path hops meta
            (c.get_connected_nodes cur "forward") c visited rest
          with ⟨o, c2, v2, q2⟩
        rw [hE] at hscan
        cases o with
        | some r => exact hscan
        | none =>
          obtain ⟨hp, hd, _, hq2⟩ := hscan
          exact ih c2 q2 v2 hp hd hq2

theorem mem_of_getLast?_gen {α : Type} {a : α} {l : List α}
    (h : l.getLast? = some a) : a ∈ l := by
  have hm : a ∈ l.getLast? := Option.mem_def.mpr h
  rcases List.mem_getLast?_eq_getLast hm with ⟨hne, heq⟩
  rw [heq]
  exact List.getLast_mem hne

theorem head_ne_last_norm {p0 : List String} (hlen : 2 ≤ p0.length)
    (hnod : (p0.map normalize_title).Nodup) {x y : String}
    (hx : p0.head?.map normalize_title = some x)
    (hy : p0.getLast?.map normalize_title = some y) : x ≠ y := by
  match p0, hlen with
  | a :: b :: t, _ =>
    intro hxy
    have hx2 : normalize_title a = x := by simpa using hx
    rw [List.getLast?_cons_cons] at hy
    cases hz : (b :: t).getLast? with
    | none => simp at hz
    | some z =>
      rw [hz] at hy
      have hy2 : normalize_title z = y := by simpa using hy
      have hzm : z ∈ b :: t := mem_of_getLast?_gen hz
      rw [List.map_cons] at hnod
      have hnm : normalize_title a ∉ (b :: t).map normalize_title :=
        (List.nodup_cons.1 hnod).1
      exact hnm (by
        rw [hx2, hxy, ← hy2]
        exact List.mem_map_of_mem normalize_title hzm)

/-- Claim C5, amended.  For a memory-tier cache (persistence disabled)
whose stored segments are well-formed and whose endpoints are
normalization-fixed, every composed result `(p, meta)` of `compose_path`
starts at `s` and ends at `e` up to normalization, every adjacent pair of
`p` appears (up to normalization) as an adjacent pair *inside* some cached
segment, and the provenance hinge chain runs from `s` to `e` without
repeating a hinge.  (The original claim is refuted by
`compose_path_counterexample`: interior titles can repeat across glued
segments, and adjacent pairs generally correspond to segment-interior
edges, not segment endpoints.) -/
theorem compose_path_amended (c : PathCache) (s e : String)
    (maxHops fuel : Nat) (hwf : WFMem c.mem)
    (hdbp : c.enable_db_persistence = false)
    (hs : normalize_title s = s) (he : normalize_title e = e)
    (p : List String) (m : List SegSource)
    (hres : (c.compose_path s e maxHops fuel).1 = some (p, m)) :
    p.head?.map normalize_title = some s ∧
    p.getLast?.map normalize_title = some e ∧
    (∀ uv ∈ pathEdges p, PairInSegs c.mem uv.1 uv.2) ∧
    metaChainFrom s e m ∧
    ((m.map SegSource.from_page) ++ [e]).Nodup := by
  obtain ⟨hg1, hg2, hg3⟩ := get_dbp_false c hdbp s e
  simp only [PathCache.compose_path] at hres
  rcases hgr : c.get s e with ⟨d, c1⟩
  rw [hgr] at hres hg1 hg2 hg3
  have hperm1 : List.Perm c1.mem c.mem := by
    rw [hg2]
    exact perm_moveToEnd c.mem (mkKey s e)
  have hinit : ∀ en ∈ ([(s, [s], 0, [])] : List ComposeEntry),
      CEntryInv c.mem s [s] en := by
    intro en hen
    rw [List.mem_singleton] at hen
    subst hen
    refine ⟨rfl, by simp, ?_, rfl, by simp, by simp⟩
    intro uv huv
    simp [pathEdges] at huv
  have hbfs := fun (cin : PathCache) (hp : List.Perm cin.mem c.mem)
      (hd : cin.enable_db_persistence = false) =>
    composeBFS_spec c.mem hwf s e maxHops fuel cin [(s, [s], 0, [])] [s]
      hp hd hinit
  cases d with
  | none =>
    dsimp only at hres
    have hpost := hbfs c1 hperm1 hg3
    rcases hE : composeBFS e maxHops fuel c1 [(s, [s], 0, [])] [s] with ⟨o, c2⟩
    rw [hE] at hpost hres
    cases o with
    | none => simp at hres
    | some r =>
      obtain ⟨_, _, hh, hl, hed, hch, hnd⟩ := hpost
      have hrpm : r = (p, m) := by simpa using hres
      subst hrpm
      refine ⟨?_, ?_, hed, hch, ?_⟩
      · rw [hh]
        simp [hs]
      · rw [← he]
        exact hl
      · rw [← he] at hnd ⊢
        exact hnd
  | some p0 =>
    dsimp only at hres
    by_cases hemp : p0.isEmpty
    · rw [if_pos hemp] at hres
      have hpost := hbfs c1 hperm1 hg3
      rcases hE : composeBFS e maxHops fuel c1 [(s, [s], 0, [])] [s]
        with ⟨o, c2⟩
      rw [hE] at hpost hres
      cases o with
      | none => simp at hres
      | some r =>
        obtain ⟨_, _, hh, hl, hed, hch, hnd⟩ := hpost
        have hrpm : r = (p, m) := by simpa using hres
        subst hrpm
        refine ⟨?_, ?_, hed, hch, ?_⟩
        · rw [hh]
          simp [hs]
        · rw [← he]
          exact hl
        · rw [← he] at hnd ⊢
          exact hnd
    · rw [if_neg hemp] at hres
      dsimp only at hres
      have hpm : p0 = p ∧
          [({ from_page := s, to_page := e, source := "cache",
                cached_at := c1.get_segment_timestamp s e } : SegSource)] = m := by
        simpa using hres
      obtain ⟨hp0, hm0⟩ := hpm
      subst hp0
      subst hm0
      have hlk : alookup c.mem (mkKey s e) = some p0 := hg1.symm
      have hmem : ((mkKey s e), p0) ∈ c.mem := alookup_mem hlk
      obtain ⟨hk1, hk2, hlen, hnod, hhead, hlast⟩ := hwf.2 _ hmem
      have hh : p0.head?.map normalize_title = some s := by
        rw [hhead]
        simp [mkKey, hs]
      have hl : p0.getLast?.map normalize_title = some e := by
        rw [hlast]
        simp [mkKey, he]
      refine ⟨hh, hl, ?_, ?_, ?_⟩
      · intro uv huv
        exact ⟨mkKey s e, p0, uv.1, uv.2, hmem, huv, rfl, rfl⟩
      · exact ⟨rfl, rfl⟩
      · have hne : s ≠ e := head_ne_last_norm hlen hnod hh hl
        simp [hne]

/-- Claim C5, counterexample.  On a well-formed memory-only cache holding
the segments `[a,x,b]` (key `(a,b)`) and `[b,x,c]` (key `(b,c)`),
`compose_path a c` returns `[a,x,b,x,c]`: the normalized title `x`
repeats, and the adjacent pair `(x,b)` matches no cached segment's
endpoint key — both refuting the claim as stated. -/
theorem compose_path_counterexample :
    ((composeCexCache.compose_path "a" "c" 10 10).1.map Prod.fst) =
      some ["a", "x", "b", "x", "c"] ∧
    ¬ ((["a", "x", "b", "x", "c"].map normalize_title).Nodup) ∧
    ("x", "b") ∈ pathEdges ["a", "x", "b", "x", "c"] ∧
    (∀ kp ∈ composeCexCache.mem, kp.1 ≠ ("x", "b")) := by
  refine ⟨?_, ?_, ?_, ?_⟩ <;> decide

/-- Witness for the amended C5 on `composeWitCache`
(`compose a c = [a,b,c]` through the segments `[a,b]` and `[b,c]`). -/
theorem compose_path_amended_witness :
    (["a", "b", "c"] : List String).head?.map normalize_title = some "a" ∧
    (["a", "b", "c"] : List String).getLast?.map normalize_title = some "c" ∧
    (∀ uv ∈ pathEdges ["a", "b", "c"],
      PairInSegs composeWitCache.mem uv.1 uv.2) ∧
    metaChainFrom "a" "c"
      [({ from_page := "a", to_page := "b", source := "cache",
            cached_at := none } : SegSource),
        ({ from_page := "b", to_page := "c", source := "cache",
            cached_at := none } : SegSource)] ∧
    ((([({ from_page := "a", to_page := "b", source := "cache",
            cached_at := none } : SegSource),
        ({ from_page := "b", to_page := "c", source := "cache",
            cached_at := none } : SegSource)]).map SegSource.from_page) ++
      ["c"]).Nodup :=
  compose_path_amended composeWitCache "a" "c" 10 10 ⟨by decide, by decide⟩ rfl
    (by decide) (by decide) ["a", "b", "c"]
    [({ from_page := "a", to_page := "b", source := "cache",
          cached_at := none } : SegSource),
      ({ from_page := "b", to_page := "c", source := "cache",
          cached_at := none } : SegSource)] (by decide)

/-! ## C1/C2 development: the single-path engine -/

theorem alookup_cons_self {κ β : Type} [DecidableEq κ] (k : κ) (v : β)
    (l : List (κ × β)) : alookup ((k, v) :: l) k = some v := by
  unfold alookup
  rw [List.find?_cons_of_pos _ (by simp)]
  rfl

theorem alookup_cons_ne {κ β : Type} [DecidableEq κ] {k k2 : κ} (v : β)
    (l : List (κ × β)) (h : k2 ≠ k) :
    alookup ((k, v) :: l) k2 = alookup l k2 := by
  unfold alookup
  rw [List.find?_cons_of_neg _ (by simpa using fun e => h e.symm)]

theorem alookup_key_mem {κ β : Type} [DecidableEq κ] {l : List (κ × β)}
    {k : κ} {v : β} (h : alookup l k = some v) : k ∈ l.map Prod.fst :=
  List.mem_map_of_mem Prod.fst (alookup_mem h)

theorem alookup_isSome_iff_mem {κ β : Type} [DecidableEq κ]
    (l : List (κ × β)) (k : κ) :
    (alookup l k).isSome = true ↔ k ∈ l.map Prod.fst := by
  constructor
  · intro h
    cases hl : alookup l k with
    | none => rw [hl] at h; simp at h
    | some v => exact alookup_key_mem hl
  · intro h
    rcases List.mem_map.1 h with ⟨q, hq, hk⟩
    unfold alookup
    cases hf : l.find? (fun r => r.1 = k) with
    | some r => simp
    | none =>
      have := List.find?_eq_none.1 hf q hq
      simp [hk] at this

theorem PTree_mono {ps : Parents} {root rootC : String} {b b2 : Nat}
    {dep : String → Nat} (h : PTree ps root rootC b dep) (hb : b ≤ b2) :
    PTree ps root rootC b2 dep :=
  { rootEntry := h.rootEntry, rootDep := h.rootDep, canonOf := h.canonOf,
    noneRoot := h.noneRoot, stepOf := h.stepOf,
    depBound := fun k po c hk => Nat.le_trans (h.depBound k po c hk) hb }

theorem PTree_extend {ps : Parents} {root rootC : String} {b : Nat}
    {dep : String → Nat} (h : PTree ps root rootC b dep)
    {k p c : String} (hk : alookup ps k = none)
    {po2 : Option String} {c2 : String} (hp : alookup ps p = some (po2, c2))
    (hc : normalize_title c = k) (hd : dep p + 1 ≤ b) :
    PTree ((k, (some p, c)) :: ps) root rootC b
      (fun x => if x = k then dep p + 1 else dep x) := by
  have hkr : root ≠ k := by
    intro e
    rw [← e, h.rootEntry] at hk
    simp at hk
  have hpk : p ≠ k := by
    intro e
    rw [← e, hp] at hk
    simp at hk
  refine ⟨?_, ?_, ?_, ?_, ?_, ?_⟩
  · rw [alookup_cons_ne _ _ hkr]
    exact h.rootEntry
  · simp only [if_neg hkr]
    exact h.rootDep
  · intro k2 po c3 hl
    by_cases hk2 : k2 = k
    · subst hk2
      rw [alookup_cons_self] at hl
      obtain ⟨h1, h2⟩ := Prod.mk.injEq .. ▸ (Option.some.inj hl)
      rw [← h2]
      exact hc
    · rw [alookup_cons_ne _ _ hk2] at hl
      exact h.canonOf k2 po c3 hl
  · intro k2 c3 hl
    by_cases hk2 : k2 = k
    · subst hk2
      rw [alookup_cons_self] at hl
      exact absurd (congrArg Prod.fst (Option.some.inj hl)).symm (by simp)
    · rw [alookup_cons_ne _ _ hk2] at hl
      exact h.noneRoot k2 c3 hl
  · intro k2 p2 c3 hl
    by_cases hk2 : k2 = k
    · subst hk2
      rw [alookup_cons_self] at hl
      have hinj := Option.some.inj hl
      have hp2 : p2 = p := by
        have := congrArg Prod.fst hinj
        simpa using this.symm
      subst hp2
      refine ⟨⟨po2, c2, ?_⟩, ?_⟩
      · rw [alookup_cons_ne _ _ hpk]
        exact hp
      · rw [if_pos rfl, if_neg hpk]
    · rw [alookup_cons_ne _ _ hk2] at hl
      obtain ⟨⟨po3, c4, hpl⟩, hdl⟩ := h.stepOf k2 p2 c3 hl
      have hp2k : p2 ≠ k := by
        intro e
        rw [← e, hpl] at hk
        simp at hk
      refine ⟨⟨po3, c4, ?_⟩, ?_⟩
      · rw [alookup_cons_ne _ _ hp2k]
        exact hpl
      · rw [if_neg hk2, if_neg hp2k]
        exact hdl
  · intro k2 po c3 hl
    by_cases hk2 : k2 = k
    · subst hk2
      rw [if_pos rfl]
      exact hd
    · rw [alookup_cons_ne _ _ hk2] at hl
      rw [if_neg hk2]
      exact h.depBound k2 po c3 hl

theorem nodup_subset_length {d l : List String} (hn : d.Nodup)
    (hs : ∀ x ∈ d, x ∈ l) : d.length ≤ l.length := by
  calc d.length = d.toFinset.card := (List.toFinset_card_of_nodup hn).symm
    _ ≤ l.toFinset.card := Finset.card_le_card (fun x hx => by
        rw [List.mem_toFinset] at hx ⊢
        exact hs x hx)
    _ ≤ l.length := l.toFinset_card_le

theorem recF_spec {ps : Parents} {root rootC : String} {b : Nat}
    {dep : String → Nat} (hT : PTree ps root rootC b dep) :
    ∀ n, ∀ k po c, alookup ps k = some (po, c) → dep k = n →
      ∀ fuel, n < fuel →
        (_reconstruct_forward_path fuel ps k).head? = some rootC ∧
        (_reconstruct_forward_path fuel ps k).getLast? = some c ∧
        (_reconstruct_forward_path fuel ps k).length = n + 1 ∧
        ((_reconstruct_forward_path fuel ps k).map normalize_title).Nodup ∧
        (∀ t ∈ _reconstruct_forward_path fuel ps k,
          normalize_title t ∈ keysOf ps ∧ dep (normalize_title t) ≤ n) ∧
        ((_reconstruct_forward_path fuel ps k).map
            normalize_title).getLast? = some k := by
  intro n
  induction n using Nat.strong_induction_on with
  | _ n ih =>
    intro k po c hl hdep fuel hfuel
    match fuel, hfuel with
    | fuel + 1, hfuel2 =>
      cases po with
      | none =>
        have hkroot : k = root := hT.noneRoot k c hl
        have hc : c = rootC := by
          rw [hkroot] at hl
          have h2 := hl.symm.trans hT.rootEntry
          simpa using h2
        have hn0 : n = 0 := by rw [← hdep, hkroot, hT.rootDep]
        subst hn0
        have hres : _reconstruct_forward_path (fuel + 1) ps k = [c] := by
          rw [_reconstruct_forward_path, hl]
        rw [hres]
        have hck := hT.canonOf k none c hl
        refine ⟨by rw [hc]; rfl, rfl, rfl, by simp, ?_, by simp [hck]⟩
        intro t ht
        rw [List.mem_singleton] at ht
        subst ht
        rw [hck]
        exact ⟨alookup_key_mem hl, by rw [hdep]⟩
      | some p =>
        obtain ⟨⟨po2, c2, hpl⟩, hstep⟩ := hT.stepOf k p c hl
        have hmpos : 0 < n := by
          rw [← hdep, hstep]
          exact Nat.succ_pos _
        obtain ⟨m, hm⟩ : ∃ m, n = m + 1 :=
          ⟨n - 1, (Nat.succ_pred_eq_of_pos hmpos).symm⟩
        have hdp : dep p = m := by
          have h2 := hdep.trans hm
          rw [hstep] at h2
          exact Nat.succ_injective h2
        have hmf : m < fuel := by
          have h1 : n ≤ fuel := Nat.lt_succ_iff.1 hfuel2
          have h3 : m < n := by rw [hm]; exact Nat.lt_succ_self m
          exact Nat.lt_of_lt_of_le h3 h1
        obtain ⟨ihh, ihl, ihlen, ihnod, ihmem, ihlast⟩ :=
          ih m (by rw [hm]; exact Nat.lt_succ_self m) p po2 c2 hpl hdp fuel hmf
        have hres : _reconstruct_forward_path (fuel + 1) ps k =
            _reconstruct_forward_path fuel ps p ++ [c] := by
          rw [_reconstruct_forward_path, hl]
        rw [hres]
        have hck := hT.canonOf k (some p) c hl
        constructor
        · rw [List.head?_append, ihh]
          rfl
        constructor
        · simp
        constructor
        · simp only [List.length_append, ihlen, List.length_cons,
            List.length_nil]
          omega
        constructor
        · rw [List.map_append]
          apply nodup_snoc ihnod
          intro hmem2
          rcases List.mem_map.1 (by simpa using hmem2) with ⟨t, ht, hnt⟩
          have h4 := (ihmem t ht).2
          rw [hnt, hck, hdep] at h4
          omega
        constructor
        · intro t ht
          rcases List.mem_append.1 ht with ht | ht
          · obtain ⟨h1, h2⟩ := ihmem t ht
            exact ⟨h1, by omega⟩
          · rw [List.mem_singleton] at ht
            subst ht
            rw [hck]
            exact ⟨alookup_key_mem hl, by rw [hdep]⟩
        · rw [List.map_append]
          simp [hck]

theorem dep_lt_len {ps : Parents} {root rootC : String} {b : Nat}
    {dep : String → Nat} (hT : PTree ps root rootC b dep) {k : String}
    {po : Option String} {c : String} (hl : alookup ps k = some (po, c)) :
    dep k < ps.length := by
  obtain ⟨_, _, hlen, hnod, hmem, _⟩ :=
    recF_spec hT (dep k) k po c hl rfl (dep k + 1) (Nat.lt_succ_self _)
  have hsub : ∀ x ∈ (_reconstruct_forward_path (dep k + 1) ps k).map
      normalize_title, x ∈ keysOf ps := by
    intro x hx
    rcases List.mem_map.1 hx with ⟨t, ht, hxt⟩
    rw [← hxt]
    exact (hmem t ht).1
  have hle := nodup_subset_length hnod hsub
  rw [List.length_map, hlen] at hle
  have hkeys : (keysOf ps).length = ps.length := by
    unfold keysOf
    exact List.length_map _ _
  omega

theorem getLast?_cons_of_ne {α : Type} (c : α) {t : List α} (h : t ≠ []) :
    (c :: t).getLast? = t.getLast? := by
  cases t with
  | nil => exact absurd rfl h
  | cons x xs => exact List.getLast?_cons_cons

theorem recBackAux_none (fuel : Nat) (ps : Parents) :
    recBackAux fuel ps none = [] := by
  cases fuel <;> rfl

theorem recB_spec {ps : Parents} {root rootC : String} {b : Nat}
    {dep : String → Nat} (hT : PTree ps root rootC b dep) :
    ∀ n, ∀ p po2 c, alookup ps p = some (po2, c) → dep p = n →
      ∀ fuel, n < fuel →
        (recBackAux fuel ps (some p)).length = n + 1 ∧
        (recBackAux fuel ps (some p)).head? = some c ∧
        (recBackAux fuel ps (some p)).getLast? = some rootC ∧
        ((recBackAux fuel ps (some p)).map normalize_title).Nodup ∧
        (∀ t ∈ recBackAux fuel ps (some p),
          normalize_title t ∈ keysOf ps ∧ dep (normalize_title t) ≤ n) := by
  intro n
  induction n using Nat.strong_induction_on with
  | _ n ih =>
    intro p po2 c hl hdep fuel hfuel
    match fuel, hfuel with
    | fuel + 1, hfuel2 =>
      have hck := hT.canonOf p po2 c hl
      cases po2 with
      | none =>
        have hproot : p = root := hT.noneRoot p c hl
        have hc : c = rootC := by
          rw [hproot] at hl
          have h2 := hl.symm.trans hT.rootEntry
          simpa using h2
        have hn0 : n = 0 := by rw [← hdep, hproot, hT.rootDep]
        subst hn0
        have hres : recBackAux (fuel + 1) ps (some p) = [c] := by
          rw [recBackAux, hl]
          dsimp only
          rw [recBackAux_none]
        rw [hres]
        refine ⟨rfl, rfl, by rw [hc]; rfl, by simp, ?_⟩
        intro t ht
        rw [List.mem_singleton] at ht
        subst ht
        rw [hck]
        exact ⟨alookup_key_mem hl, by rw [hdep]⟩
      | some p2 =>
        obtain ⟨⟨po3, c3, hpl⟩, hstep⟩ := hT.stepOf p p2 c hl
        have hmpos : 0 < n := by
          rw [← hdep, hstep]
          exact Nat.succ_pos _
        obtain ⟨m, hm⟩ : ∃ m, n = m + 1 :=
          ⟨n - 1, (Nat.succ_pred_eq_of_pos hmpos).symm⟩
        have hdp : dep p2 = m := by
          have h2 := hdep.trans hm
          rw [hstep] at h2
          exact Nat.succ_injective h2
        have hmf : m < fuel := by
          have h1 : n ≤ fuel := Nat.lt_succ_iff.1 hfuel2
          have h3 : m < n := by rw [hm]; exact Nat.lt_succ_self m
          exact Nat.lt_of_lt_of_le h3 h1
        obtain ⟨ihlen, ihh, ihl, ihnod, ihmem⟩ :=
          ih m (by rw [hm]; exact Nat.lt_succ_self m) p2 po3 c3 hpl hdp fuel hmf
        have hres : recBackAux (fuel + 1) ps (some p) =
            c :: recBackAux fuel ps (some p2) := by
          rw [recBackAux, hl]
        rw [hres]
        have hne : recBackAux fuel ps (some p2) ≠ [] := by
          intro e
          rw [e] at ihlen
          simp at ihlen
        constructor
        · simp only [List.length_cons, ihlen]
          omega
        constructor
        · rfl
        constructor
        · rw [getLast?_cons_of_ne c hne]
          exact ihl
        constructor
        · rw [List.map_cons, List.nodup_cons]
          refine ⟨?_, ihnod⟩
          intro hmem2
          rcases List.mem_map.1 hmem2 with ⟨t, ht, hnt⟩
          have h4 := (ihmem t ht).2
          rw [hnt, hck, hdep] at h4
          omega
        · intro t ht
          rcases List.mem_cons.1 ht with ht | ht
          · subst ht
            rw [hck]
            exact ⟨alookup_key_mem hl, by rw [hdep]⟩
          · obtain ⟨h1, h2⟩ := ihmem t ht
            exact ⟨h1, by omega⟩

theorem recBack_spec {ps : Parents} {root rootC : String} {b : Nat}
    {dep : String → Nat} (hT : PTree ps root rootC b dep) {k : String}
    {po : Option String} {c : String} (hl : alookup ps k = some (po, c))
    {fuel : Nat} (hfuel : ps.length ≤ fuel) :
    (_reconstruct_backward_path fuel ps k).length = dep k ∧
    (0 < dep k →
      (_reconstruct_backward_path fuel ps k).getLast? = some rootC) ∧
    ((_reconstruct_backward_path fuel ps k).map normalize_title).Nodup ∧
    (∀ t ∈ _reconstruct_backward_path fuel ps k,
      normalize_title t ∈ keysOf ps ∧ dep (normalize_title t) < dep k) := by
  unfold _reconstruct_backward_path
  rw [hl]
  cases po with
  | none =>
    have hkroot : k = root := hT.noneRoot k c hl
    have hd0 : dep k = 0 := by rw [hkroot, hT.rootDep]
    dsimp only
    rw [recBackAux_none, hd0]
    refine ⟨rfl, by omega, by simp, ?_⟩
    intro t ht
    simp at ht
  | some p =>
    dsimp only
    obtain ⟨⟨po2, c2, hpl⟩, hstep⟩ := hT.stepOf k p c hl
    have hplen : dep p < fuel :=
      Nat.lt_of_lt_of_le (dep_lt_len hT hpl) hfuel
    obtain ⟨hlen, hh, hlast, hnod, hmem⟩ :=
      recB_spec hT (dep p) p po2 c2 hpl rfl fuel hplen
    refine ⟨by rw [hlen, hstep], fun _ => hlast, hnod, ?_⟩
    intro t ht
    obtain ⟨h1, h2⟩ := hmem t ht
    exact ⟨h1, by omega⟩

theorem nodup_three {A B : List String} {x : String}
    (hA : A.Nodup) (hB : B.Nodup) (hxA : x ∉ A) (hxB : x ∉ B)
    (hAB : ∀ t ∈ A, t ∉ B) : (A ++ x :: B).Nodup := by
  rw [List.nodup_append]
  refine ⟨hA, ?_, ?_⟩
  · rw [List.nodup_cons]
    exact ⟨hxB, hB⟩
  · intro a ha hb
    rcases List.mem_cons.1 hb with hb | hb
    · subst hb
      exact hxA ha
    · exact hAB a ha hb

theorem QEntryF_mono {start : String} {K K2 : List String} {fd fd2 : Nat}
    {dep dep2 : String → Nat}
    (hK : ∀ x ∈ K, x ∈ K2) (hdep : ∀ x ∈ K, dep2 x = dep x)
    (hfd : fd ≤ fd2) {q : String × List String × Nat}
    (h : QEntryF start K fd dep q) : QEntryF start K2 fd2 dep2 q := by
  obtain ⟨cur, path, d⟩ := q
  obtain ⟨h1, h2, h3, h4, h5, h6, h7⟩ := h
  refine ⟨h1, h2, h3, h4, fun t ht => hK _ (h5 t ht), by omega, ?_⟩
  have hcin : normalize_title cur ∈ K := h5 cur (mem_of_getLast?_gen h2)
  rw [hdep _ hcin, h7]

theorem QEntryB_mono {endT : String} {K K2 : List String} {bd bd2 : Nat}
    {dep dep2 : String → Nat}
    (hK : ∀ x ∈ K, x ∈ K2) (hdep : ∀ x ∈ K, dep2 x = dep x)
    (hbd : bd ≤ bd2) {q : String × List String × Nat}
    (h : QEntryB endT K bd dep q) : QEntryB endT K2 bd2 dep2 q := by
  obtain ⟨cur, path, d⟩ := q
  obtain ⟨h1, h2, h3, h4, h5, h6, h7⟩ := h
  refine ⟨h1, h2, h3, h4, fun t ht => hK _ (h5 t ht), by omega, ?_⟩
  have hcin : normalize_title cur ∈ K := by
    apply h5
    cases path with
    | nil => simp at h1
    | cons a t =>
      have : a = cur := by simpa using h1
      rw [this]
      exact List.mem_cons_self _ _
  rw [hdep _ hcin, h7]

theorem fwd_meeting_good (start endT cur link : String)
    (curPath : List String) (d : Nat) (s : PFState)
    (depB : String → Nat)
    (hdisj : ∀ k, k ∈ keysOf s.fv → k ∉ keysOf s.bv)
    (hbv : keysOf s.bv = keysOf s.bp)
    (hTB : PTree s.bp (normalize_title endT) endT (s.bd + 1) depB)
    (hph : curPath.head? = some start)
    (hpl : curPath.getLast? = some cur)
    (hplen : curPath.length = d + 1)
    (hpnod : (curPath.map normalize_title).Nodup)
    (hpmem : ∀ t ∈ curPath, normalize_title t ∈ keysOf s.fv)
    (hmeet : (alookup s.bv (normalize_title link)).isSome = true) :
    GoodPath start endT (d + s.bd + 2)
      (curPath ++ [link] ++
        _reconstruct_backward_path s.bp.length s.bp (normalize_title link)) := by
  have hlnbp : normalize_title link ∈ keysOf s.bp := by
    rw [← hbv]
    exact (alookup_isSome_iff_mem _ _).1 hmeet
  have hlk : (alookup s.bp (normalize_title link)).isSome = true :=
    (alookup_isSome_iff_mem _ _).2 hlnbp
  cases hbl : alookup s.bp (normalize_title link) with
  | none => rw [hbl] at hlk; simp at hlk
  | some pc =>
    obtain ⟨po, c⟩ := pc
    obtain ⟨hblen, hblast, hbnod, hbmem⟩ :=
      recBack_spec hTB hbl (Nat.le_refl s.bp.length)
    have hdepb : depB (normalize_title link) ≤ s.bd + 1 :=
      hTB.depBound _ po c hbl
    have hcne : curPath ≠ [] := by
      intro e
      rw [e] at hph
      simp at hph
    refine ⟨?_, ?_, ?_, ?_⟩
    · rw [List.append_assoc, List.head?_append, hph]
      rfl
    · by_cases hz : 0 < depB (normalize_title link)
      · have hbne : _reconstruct_backward_path s.bp.length s.bp
            (normalize_title link) ≠ [] := by
          intro e
          rw [e] at hblen
          simp at hblen
          omega
        rw [List.getLast?_append]
        cases hgl : (_reconstruct_backward_path s.bp.length s.bp
            (normalize_title link)).getLast? with
        | none =>
          rw [List.getLast?_eq_none_iff] at hgl
          exact absurd hgl hbne
        | some z =>
          have hz2 := hblast hz
          rw [hgl] at hz2
          have hze : z = endT := by simpa using hz2
          subst hze
          rfl
      · have hd0 : depB (normalize_title link) = 0 := by omega
        have hlnroot : normalize_title link = normalize_title endT := by
          cases po with
          | none => exact hTB.noneRoot _ c hbl
          | some p =>
            obtain ⟨_, hstep⟩ := hTB.stepOf _ p c hbl
            rw [hstep] at hd0
            simp at hd0
        have hbnil : _reconstruct_backward_path s.bp.length s.bp
            (normalize_title link) = [] := by
          have := hblen
          rw [hd0] at this
          exact List.length_eq_zero.1 this
        rw [hbnil]
        simp [hlnroot]
    · rw [List.append_assoc, List.map_append]
      have hmapcons : ((([link] : List String) ++
          _reconstruct_backward_path s.bp.length s.bp
            (normalize_title link)).map normalize_title) =
          normalize_title link ::
            (_reconstruct_backward_path s.bp.length s.bp
              (normalize_title link)).map normalize_title := by
        simp
      rw [hmapcons]
      apply nodup_three hpnod hbnod
      · intro hmem2
        rcases List.mem_map.1 hmem2 with ⟨t, ht, hnt⟩
        have h1 := hpmem t ht
        rw [hnt] at h1
        exact hdisj _ h1 ((alookup_isSome_iff_mem _ _).1 hmeet)
      · intro hmem2
        rcases List.mem_map.1 hmem2 with ⟨t, ht, hnt⟩
        have h2 := (hbmem t ht).2
        rw [hnt] at h2
        omega
      · intro a ha hb
        rcases List.mem_map.1 ha with ⟨t, ht, hnt⟩
        rcases List.mem_map.1 hb with ⟨t2, ht2, hnt2⟩
        have h1 := hpmem t ht
        rw [hnt] at h1
        have h2 := (hbmem t2 ht2).1
        rw [hnt2] at h2
        rw [← hbv] at h2
        exact hdisj _ h1 h2
    · simp only [List.length_append, List.length_cons, List.length_nil,
        hplen, hblen, List.append_assoc]
      omega

theorem bwd_meeting_good (start endT cur link : String)
    (curPath : List String) (d : Nat) (s : PFState)
    (depF : String → Nat)
    (hdisj : ∀ k, k ∈ keysOf s.fv → k ∉ keysOf s.bv)
    (hfv : keysOf s.fv = keysOf s.fp)
    (hTF : PTree s.fp (normalize_title start) start (s.fd + 1) depF)
    (hph : curPath.head? = some cur)
    (hpl : curPath.getLast? = some endT)
    (hplen : curPath.length = d + 1)
    (hpnod : (curPath.map normalize_title).Nodup)
    (hpmem : ∀ t ∈ curPath, normalize_title t ∈ keysOf s.bv)
    (hmeet : (alookup s.fv (normalize_title link)).isSome = true) :
    GoodPath start endT (s.fd + d + 2)
      (_reconstruct_forward_path s.fp.length s.fp (normalize_title link) ++
        curPath) := by
  have hlnfp : normalize_title link ∈ keysOf s.fp := by
    rw [← hfv]
    exact (alookup_isSome_iff_mem _ _).1 hmeet
  have hlk : (alookup s.fp (normalize_title link)).isSome = true :=
    (alookup_isSome_iff_mem _ _).2 hlnfp
  cases hfl : alookup s.fp (normalize_title link) with
  | none => rw [hfl] at hlk; simp at hlk
  | some pc =>
    obtain ⟨po, c⟩ := pc
    have hflt : depF (normalize_title link) < s.fp.length := dep_lt_len hTF hfl
    obtain ⟨hFh, hFl, hFlen, hFnod, hFmem, hFlastn⟩ :=
      recF_spec hTF (depF (normalize_title link)) _ po c hfl rfl
        s.fp.length hflt
    have hdepf : depF (normalize_title link) ≤ s.fd + 1 :=
      hTF.depBound _ po c hfl
    have hFne : _reconstruct_forward_path s.fp.length s.fp
        (normalize_title link) ≠ [] := by
      intro e
      rw [e] at hFlen
      simp at hFlen
    have hcne : curPath ≠ [] := by
      intro e
      rw [e] at hph
      simp at hph
    refine ⟨?_, ?_, ?_, ?_⟩
    · rw [List.head?_append, hFh]
      rfl
    · rw [List.getLast?_append]
      cases hgl : curPath.getLast? with
      | none =>
        rw [List.getLast?_eq_none_iff] at hgl
        exact absurd hgl hcne
      | some z =>
        have hze : z = endT := by
          rw [hgl] at hpl
          simpa using hpl
        subst hze
        rfl
    · rw [List.map_append, List.nodup_append]
      refine ⟨hFnod, hpnod, ?_⟩
      intro a ha hb
      rcases List.mem_map.1 ha with ⟨t, ht, hnt⟩
      rcases List.mem_map.1 hb with ⟨t2, ht2, hnt2⟩
      have h1 := (hFmem t ht).1
      rw [hnt] at h1
      rw [← hfv] at h1
      have h2 := hpmem t2 ht2
      rw [hnt2] at h2
      exact hdisj _ h1 h2
    · simp only [List.length_append, hplen, hFlen]
      omega

theorem alookup_none_of_not_mem {κ β : Type} [DecidableEq κ]
    {l : List (κ × β)} {k : κ} (h : k ∉ l.map Prod.fst) :
    alookup l k = none := by
  cases he : alookup l k with
  | none => rfl
  | some v =>
    exact absurd ((alookup_isSome_iff_mem _ _).1 (by rw [he]; rfl)) h

theorem fwdScan_spec (start endT : String) (cur : String)
    (curPath : List String) (d : Nat) :
    ∀ (links : List String) (s : PFState) (depF depB : String → Nat),
      keysOf s.fv = keysOf s.fp →
      (keysOf s.fp).Nodup →
      (∀ k, k ∈ keysOf s.fv → k ∉ keysOf s.bv) →
      keysOf s.bv = keysOf s.bp →
      PTree s.fp (normalize_title start) start (s.fd + 1) depF →
      PTree s.bp (normalize_title endT) endT (s.bd + 1) depB →
      (∀ q ∈ s.fq, QEntryF start (keysOf s.fv) s.fd depF q) →
      curPath.head? = some start →
      curPath.getLast? = some cur →
      curPath.length = d + 1 →
      (curPath.map normalize_title).Nodup →
      (∀ t ∈ curPath, normalize_title t ∈ keysOf s.fv) →
      depF (normalize_title cur) = d →
      d ≤ s.fd →
      ((fwdScan cur curPath d links s).2.bv = s.bv ∧
       (fwdScan cur curPath d links s).2.bp = s.bp ∧
       (fwdScan cur curPath d links s).2.bq = s.bq ∧
       (fwdScan cur curPath d links s).2.fd = s.fd ∧
       (fwdScan cur curPath d links s).2.bd = s.bd ∧
       (fwdScan cur curPath d links s).2.memo = s.memo ∧
       keysOf (fwdScan cur curPath d links s).2.fv =
         keysOf (fwdScan cur curPath d links s).2.fp ∧
       (keysOf (fwdScan cur curPath d links s).2.fp).Nodup ∧
       (∀ k, k ∈ keysOf (fwdScan cur curPath d links s).2.fv →
         k ∉ keysOf s.bv) ∧
       (∃ depF2,
         PTree (fwdScan cur curPath d links s).2.fp (normalize_title start)
           start (s.fd + 1) depF2 ∧
         (∀ q ∈ (fwdScan cur curPath d links s).2.fq,
           QEntryF start (keysOf (fwdScan cur curPath d links s).2.fv)
             s.fd depF2 q)) ∧
       (∀ p, (fwdScan cur curPath d links s).1 = some p →
         GoodPath start endT (s.fd + s.bd + 2) p)) := by
  intro links
  induction links with
  | nil =>
    intro s depF depB hfv hnodk hdisj hbv hTF hTB hq hph hpl hplen hpnod
      hpmem hdep hd
    exact ⟨rfl, rfl, rfl, rfl, rfl, rfl, hfv, hnodk, hdisj,
      ⟨depF, hTF, hq⟩, fun p hp => by simp [fwdScan] at hp⟩
  | cons link rest ih =>
    intro s depF depB hfv hnodk hdisj hbv hTF hTB hq hph hpl hplen hpnod
      hpmem hdep hd
    rw [fwdScan]
    dsimp only
    by_cases hmeet : (alookup s.bv (normalize_title link)).isSome = true
    · rw [if_pos hmeet]
      refine ⟨rfl, rfl, rfl, rfl, rfl, rfl, hfv, hnodk, hdisj,
        ⟨depF, hTF, hq⟩, ?_⟩
      intro p hp
      have hpe : p = curPath ++ [link] ++
          _reconstruct_backward_path s.bp.length s.bp
            (normalize_title link) := by
        simpa using hp.symm
      subst hpe
      obtain ⟨g1, g2, g3, g4⟩ := fwd_meeting_good start endT cur link
        curPath d s depB hdisj hbv hTB hph hpl hplen hpnod hpmem hmeet
      exact ⟨g1, g2, g3, by omega⟩
    · rw [if_neg hmeet]
      by_cases hseen : (alookup s.fv (normalize_title link)).isSome = true
      · rw [if_pos hseen]
        exact ih s depF depB hfv hnodk hdisj hbv hTF hTB hq hph hpl hplen
          hpnod hpmem hdep hd
      · rw [if_neg hseen]
        have hfresh : normalize_title link ∉ keysOf s.fv := by
          intro hmem2
          exact hseen ((alookup_isSome_iff_mem _ _).2 hmem2)
        have hlnbv : normalize_title link ∉ keysOf s.bv := by
          intro hmem2
          exact hmeet ((alookup_isSome_iff_mem _ _).2 hmem2)
        have hcurk : normalize_title cur ∈ keysOf s.fv :=
          hpmem cur (mem_of_getLast?_gen hpl)
        have hlnfp : alookup s.fp (normalize_title link) = none := by
          apply alookup_none_of_not_mem
          show normalize_title link ∉ keysOf s.fp
          rw [← hfv]
          exact hfresh
        have hcurfp : (alookup s.fp (normalize_title cur)).isSome = true := by
          rw [alookup_isSome_iff_mem]
          show normalize_title cur ∈ keysOf s.fp
          rw [← hfv]
          exact hcurk
        cases hcl : alookup s.fp (normalize_title cur) with
        | none => rw [hcl] at hcurfp; simp at hcurfp
        | some pc2 =>
          obtain ⟨po2, c2⟩ := pc2
          have hTF2 := PTree_extend hTF hlnfp hcl rfl
            (by rw [hdep]; omega)
          have hkeys2 : keysOf ((normalize_title link, some cur) :: s.fv) =
              normalize_title link :: keysOf s.fv := rfl
          have hkeys2p : keysOf ((normalize_title link,
              (some (normalize_title cur), link)) :: s.fp) =
              normalize_title link :: keysOf s.fp := rfl
          have hdres := ih
            { s with
              fv := (normalize_title link, some cur) :: s.fv,
              fp := (normalize_title link,
                (some (normalize_title cur), link)) :: s.fp,
              fq := s.fq ++ [(link, curPath ++ [link], d + 1)] }
            (fun x => if x = normalize_title link
              then depF (normalize_title cur) + 1 else depF x)
            depB
            (by
              dsimp only
              show normalize_title link :: keysOf s.fv =
                normalize_title link :: keysOf s.fp
              rw [hfv])
            (by
              dsimp only
              show (normalize_title link :: keysOf s.fp).Nodup
              rw [List.nodup_cons]
              refine ⟨?_, hnodk⟩
              rw [← hfv]
              exact hfresh)
            (by
              dsimp only
              intro k hk
              have hk2 : k ∈ normalize_title link :: keysOf s.fv := hk
              rcases List.mem_cons.1 hk2 with hk3 | hk3
              · subst hk3
                exact hlnbv
              · exact hdisj k hk3)
            (by dsimp only; exact hbv)
            (by dsimp only; exact hTF2)
            (by dsimp only; exact hTB)
            (by
              dsimp only
              intro q hq2
              rcases List.mem_append.1 hq2 with hq2 | hq2
              · refine QEntryF_mono ?_ ?_ (Nat.le_refl _) (hq q hq2)
                · intro x hx
                  exact List.mem_cons_of_mem _ hx
                · intro x hx
                  have hxne : x ≠ normalize_title link := by
                    intro e
                    rw [e] at hx
                    exact hfresh hx
                  simp [hxne]
              · rw [List.mem_singleton] at hq2
                subst hq2
                refine ⟨?_, ?_, ?_, ?_, ?_, ?_, ?_⟩
                · rw [List.head?_append, hph]
                  rfl
                · simp
                · simp [hplen]
                · rw [List.map_append]
                  apply nodup_snoc hpnod
                  intro hmem2
                  rcases List.mem_map.1 (by simpa using hmem2)
                    with ⟨t, ht, hnt⟩
                  have h1 := hpmem t ht
                  rw [hnt] at h1
                  exact hfresh h1
                · intro t ht
                  rcases List.mem_append.1 ht with ht | ht
                  · exact List.mem_cons_of_mem _ (hpmem t ht)
                  · rw [List.mem_singleton] at ht
                    subst ht
                    exact List.mem_cons_self _ _
                · omega
                · simp [hdep])
            hph hpl hplen hpnod
            (by
              dsimp only
              intro t ht
              exact List.mem_cons_of_mem _ (hpmem t ht))
            (by
              dsimp only
              have hcne : normalize_title cur ≠ normalize_title link := by
                intro e
                rw [e] at hcurk
                exact hfresh hcurk
              simp [hcne, hdep])
            (by dsimp only; exact hd)
          obtain ⟨r1, r2, r3, r4, r5, r6, r7, r8, r9, r10, r11⟩ := hdres
          exact ⟨r1, r2, r3, r4, r5, r6, r7, r8, r9, r10, r11⟩

theorem bwdScan_spec (o : Oracle) (start endT : String) (cur : String)
    (curPath : List String) (d : Nat) :
    ∀ (links : List String) (s : PFState) (depF depB : String → Nat),
      keysOf s.fv = keysOf s.fp →
      (keysOf s.bp).Nodup →
      (∀ k, k ∈ keysOf s.fv → k ∉ keysOf s.bv) →
      keysOf s.bv = keysOf s.bp →
      PTree s.fp (normalize_title start) start (s.fd + 1) depF →
      PTree s.bp (normalize_title endT) endT (s.bd + 1) depB →
      (∀ q ∈ s.bq, QEntryB endT (keysOf s.bv) s.bd depB q) →
      curPath.head? = some cur →
      curPath.getLast? = some endT →
      curPath.length = d + 1 →
      (curPath.map normalize_title).Nodup →
      (∀ t ∈ curPath, normalize_title t ∈ keysOf s.bv) →
      depB (normalize_title cur) = d →
      d ≤ s.bd →
      ((bwdScan o cur curPath d links s).2.fv = s.fv ∧
       (bwdScan o cur curPath d links s).2.fp = s.fp ∧
       (bwdScan o cur curPath d links s).2.fq = s.fq ∧
       (bwdScan o cur curPath d links s).2.fd = s.fd ∧
       (bwdScan o cur curPath d links s).2.bd = s.bd ∧
       keysOf (bwdScan o cur curPath d links s).2.bv =
         keysOf (bwdScan o cur curPath d links s).2.bp ∧
       (keysOf (bwdScan o cur curPath d links s).2.bp).Nodup ∧
       (∀ k, k ∈ keysOf s.fv →
         k ∉ keysOf (bwdScan o cur curPath d links s).2.bv) ∧
       (∃ depB2,
         PTree (bwdScan o cur curPath d links s).2.bp
           (normalize_title endT) endT (s.bd + 1) depB2 ∧
         (∀ q ∈ (bwdScan o cur curPath d links s).2.bq,
           QEntryB endT (keysOf (bwdScan o cur curPath d links s).2.bv)
             s.bd depB2 q)) ∧
       (∀ p, (bwdScan o cur curPath d links s).1 = some p →
         GoodPath start endT (s.fd + s.bd + 2) p)) := by
  intro links
  induction links with
  | nil =>
    intro s depF depB hfv hnodk hdisj hbv hTF hTB hq hph hpl hplen hpnod
      hpmem hdep hd
    exact ⟨rfl, rfl, rfl, rfl, rfl, hbv, hnodk, fun k hk => hdisj k hk,
      ⟨depB, hTB, hq⟩, fun p hp => by simp [bwdScan] at hp⟩
  | cons link rest ih =>
    intro s depF depB hfv hnodk hdisj hbv hTF hTB hq hph hpl hplen hpnod
      hpmem hdep hd
    rw [bwdScan]
    dsimp only
    by_cases hmeet : (alookup s.fv (normalize_title link)).isSome = true
    · rw [if_pos hmeet]
      by_cases hval : (validate_path o []
          (_reconstruct_forward_path s.fp.length s.fp
            (normalize_title link) ++ curPath)).1 = true
      · rw [if_pos hval]
        refine ⟨rfl, rfl, rfl, rfl, rfl, hbv, hnodk,
          fun k hk => hdisj k hk, ⟨depB, hTB, hq⟩, ?_⟩
        intro p hp
        have hpe : p = _reconstruct_forward_path s.fp.length s.fp
            (normalize_title link) ++ curPath := by
          simpa using hp.symm
        subst hpe
        obtain ⟨g1, g2, g3, g4⟩ := bwd_meeting_good start endT cur link
          curPath d s depF hdisj hfv hTF hph hpl hplen hpnod hpmem hmeet
        exact ⟨g1, g2, g3, by omega⟩
      · rw [Bool.not_eq_true] at hval
        rw [if_neg (by rw [hval]; simp)]
        exact ih _ depF depB hfv hnodk hdisj hbv hTF hTB hq hph hpl hplen
          hpnod hpmem hdep hd
    · rw [if_neg hmeet]
      by_cases hseen : (alookup s.bv (normalize_title link)).isSome = true
      · rw [if_pos hseen]
        exact ih s depF depB hfv hnodk hdisj hbv hTF hTB hq hph hpl hplen
          hpnod hpmem hdep hd
      · rw [if_neg hseen]
        have hfresh : normalize_title link ∉ keysOf s.bv := by
          intro hmem2
          exact hseen ((alookup_isSome_iff_mem _ _).2 hmem2)
        have hlnfv : normalize_title link ∉ keysOf s.fv := by
          intro hmem2
          exact hmeet ((alookup_isSome_iff_mem _ _).2 hmem2)
        have hcurk : normalize_title cur ∈ keysOf s.bv := by
          apply hpmem
          cases hcp : curPath with
          | nil => rw [hcp] at hph; simp at hph
          | cons a t =>
            rw [hcp] at hph
            have : a = cur := by simpa using hph
            rw [this]
            exact List.mem_cons_self _ _
        have hlnbp : alookup s.bp (normalize_title link) = none := by
          apply alookup_none_of_not_mem
          show normalize_title link ∉ keysOf s.bp
          rw [← hbv]
          exact hfresh
        have hcurbp : (alookup s.bp (normalize_title cur)).isSome = true := by
          rw [alookup_isSome_iff_mem]
          show normalize_title cur ∈ keysOf s.bp
          rw [← hbv]
          exact hcurk
        cases hcl : alookup s.bp (normalize_title cur) with
        | none => rw [hcl] at hcurbp; simp at hcurbp
        | some pc2 =>
          obtain ⟨po2, c2⟩ := pc2
          have hTB2 := PTree_extend hTB hlnbp hcl rfl
            (by rw [hdep]; omega)
          have hdres := ih
            { s with
              bv := (normalize_title link, some cur) :: s.bv,
              bp := (normalize_title link,
                (some (normalize_title cur), link)) :: s.bp,
              bq := s.bq ++ [(link, [link] ++ curPath, d + 1)] }
            depF
            (fun x => if x = normalize_title link
              then depB (normalize_title cur) + 1 else depB x)
            (by dsimp only; exact hfv)
            (by
              dsimp only
              show (normalize_title link :: keysOf s.bp).Nodup
              rw [List.nodup_cons]
              refine ⟨?_, hnodk⟩
              rw [← hbv]
              exact hfresh)
            (by
              dsimp only
              intro k hk
              intro hk2
              have hk3 : k ∈ normalize_title link :: keysOf s.bv := hk2
              rcases List.mem_cons.1 hk3 with hk4 | hk4
              · subst hk4
                exact hlnfv hk
              · exact hdisj k hk hk4)
            (by
              dsimp only
              show normalize_title link :: keysOf s.bv =
                normalize_title link :: keysOf s.bp
              rw [hbv])
            (by dsimp only; exact hTF)
            (by dsimp only; exact hTB2)
            (by
              dsimp only
              intro q hq2
              rcases List.mem_append.1 hq2 with hq2 | hq2
              · refine QEntryB_mono ?_ ?_ (Nat.le_refl _) (hq q hq2)
                · intro x hx
                  exact List.mem_cons_of_mem _ hx
                · intro x hx
                  have hxne : x ≠ normalize_title link := by
                    intro e
                    rw [e] at hx
                    exact hfresh hx
                  simp [hxne]
              · rw [List.mem_singleton] at hq2
                subst hq2
                refine ⟨?_, ?_, ?_, ?_, ?_, ?_, ?_⟩
                · rfl
                · show ([link] ++ curPath).getLast? = some endT
                  rw [List.getLast?_append, hpl]
                  rfl
                · simp [hplen]
                · rw [List.cons_append]
                  show (normalize_title link ::
                    curPath.map normalize_title).Nodup
                  rw [List.nodup_cons]
                  refine ⟨?_, hpnod⟩
                  intro hmem2
                  rcases List.mem_map.1 hmem2 with ⟨t, ht, hnt⟩
                  have h1 := hpmem t ht
                  rw [hnt] at h1
                  exact hfresh h1
                · intro t ht
                  rcases List.mem_cons.1 (by simpa using ht) with ht2 | ht2
                  · subst ht2
                    exact List.mem_cons_self _ _
                  · exact List.mem_cons_of_mem _ (hpmem t ht2)
                · omega
                · simp [hdep]
            )
            hph hpl hplen hpnod
            (by
              dsimp only
              intro t ht
              exact List.mem_cons_of_mem _ (hpmem t ht))
            (by
              dsimp only
              have hcne : normalize_title cur ≠ normalize_title link := by
                intro e
                rw [e] at hcurk
                exact hfresh hcurk
              simp [hcne, hdep])
            (by dsimp only; exact hd)
          exact hdres

theorem GoodPath_mono {start endT : String} {b b2 : Nat} {p : List String}
    (h : GoodPath start endT b p) (hb : b ≤ b2) :
    GoodPath start endT b2 p :=
  ⟨h.1, h.2.1, h.2.2.1, Nat.le_trans h.2.2.2 hb⟩

theorem bfsLoop_sound (o : Oracle) (start endT : String) (maxd : Nat) :
    ∀ (fuel : Nat) (s : PFState),
      SingleInv start endT s →
      ∀ p, (bfsLoop o maxd fuel s).1 = some p →
        GoodPath start endT (maxd + 3) p := by
  intro fuel
  induction fuel with
  | zero =>
    intro s hinv p hres
    simp [bfsLoop] at hres
  | succ n ih =>
    intro s hinv p hres
    obtain ⟨hne, hfv, hbv, hnodf, hnodb, hdisj, depF, depB, hTF, hTB,
      hqf, hqb⟩ := hinv
    rw [bfsLoop] at hres
    split at hres
    · rename_i hg
      split at hres
      · rename_i hfwd
        split at hres
        · simp at hres
        · rename_i cur path dq rest heqq
          have hentry : QEntryF start (keysOf s.fv) s.fd depF
              (cur, path, dq) := hqf _ (by rw [heqq]; exact List.mem_cons_self _ _)
          obtain ⟨eh, el, elen, enod, emem, ed, edep⟩ := hentry
          have hdq : dq ≤ max s.fd dq := Nat.le_max_right _ _
          have hfdle : max s.fd dq ≤ s.fd + 1 := by omega
          split at hres
          · rename_i hlinks
            apply ih _ _ p hres
            refine ⟨hne, hfv, hbv, hnodf, hnodb, hdisj, depF, depB,
              PTree_mono hTF (by dsimp only; omega), hTB, ?_, ?_⟩
            · intro q hq2
              dsimp only at hq2
              refine QEntryF_mono (fun x hx => hx) (fun x _ => rfl)
                (by dsimp only; omega) (hqf q ?_)
              rw [heqq]
              exact List.mem_cons_of_mem _ hq2
            · intro q hq2
              dsimp only at hq2
              exact hqb q hq2
          · rename_i links hlinks
            have hspec := fwdScan_spec start endT cur path dq links
              { s with
                fq := rest, fd := max s.fd dq,
                pagesChecked := s.pagesChecked + 1,
                memo := memoSeed s.memo (normalize_title cur) (links.map normalize_title) }
              depF depB hfv hnodf hdisj hbv
              (PTree_mono hTF (by dsimp only; omega)) hTB
              (by
                intro q hq2
                dsimp only at hq2
                refine QEntryF_mono (fun x hx => hx) (fun x _ => rfl)
                  (by dsimp only; omega) (hqf q ?_)
                rw [heqq]
                exact List.mem_cons_of_mem _ hq2)
              eh el elen enod emem edep (by dsimp only; omega)
            dsimp only at hres
            split at hres
            · rename_i p2 s3 heq2
              rw [heq2] at hspec
              obtain ⟨r1, r2, r3, r4, r5, r6, r7, r8, r9, r10, r11⟩ := hspec
              have hpe : p2 = p := by simpa using hres
              subst hpe
              have hg2 := r11 p2 rfl
              apply GoodPath_mono hg2
              dsimp only at *
              omega
            · rename_i s3 heq2
              rw [heq2] at hspec
              obtain ⟨r1, r2, r3, r4, r5, r6, r7, r8, r9,
                ⟨depF2, hT2, hq2⟩, r11⟩ := hspec
              apply ih s3 _ p hres
              refine ⟨hne, r7, ?_, r8, ?_, ?_, depF2, depB, ?_, ?_, ?_, ?_⟩
              · rw [r1, r2]
                exact hbv
              · rw [r2]
                exact hnodb
              · intro k hk
                rw [r1]
                exact r9 k hk
              · rw [r4]
                exact hT2
              · rw [r2, r5]
                exact hTB
              · intro q hq3
                refine QEntryF_mono (fun x hx => hx) (fun x _ => rfl)
                  (by rw [r4]) (hq2 q hq3)
              · intro q hq3
                rw [r3] at hq3
                refine QEntryB_mono ?_ (fun x _ => rfl) (by rw [r5]) (hqb q ?_)
                · intro x hx
                  rw [r1]
                  exact hx
                · dsimp only at hq3
                  exact hq3
      · split at hres
        · rename_i hbwd
          split at hres
          · simp at hres
          · rename_i cur path dq rest heqq
            have hentry : QEntryB endT (keysOf s.bv) s.bd depB
                (cur, path, dq) := hqb _ (by rw [heqq]; exact List.mem_cons_self _ _)
            obtain ⟨eh, el, elen, enod, emem, ed, edep⟩ := hentry
            have hdq : dq ≤ max s.bd dq := Nat.le_max_right _ _
            have hbdle : max s.bd dq ≤ s.bd + 1 := by omega
            have hspec := bwdScan_spec o start endT cur path dq
              (get_wikipedia_backlinks o cur 300)
              { s with
                bq := rest, bd := max s.bd dq,
                pagesChecked := s.pagesChecked + 1 }
              depF depB hfv hnodb hdisj hbv hTF
              (PTree_mono hTB (by dsimp only; omega))
              (by
                intro q hq2
                dsimp only at hq2
                refine QEntryB_mono (fun x hx => hx) (fun x _ => rfl)
                  (by dsimp only; omega) (hqb q ?_)
                rw [heqq]
                exact List.mem_cons_of_mem _ hq2)
              eh el elen enod emem edep (by dsimp only; omega)
            dsimp only at hres
            split at hres
            · rename_i p2 s2 heq2
              rw [heq2] at hspec
              obtain ⟨r1, r2, r3, r4, r5, r6, r7, r8, r9, r10⟩ := hspec
              have hpe : p2 = p := by simpa using hres
              subst hpe
              have hg2 := r10 p2 rfl
              apply GoodPath_mono hg2
              dsimp only at *
              omega
            · rename_i s2 heq2
              rw [heq2] at hspec
              obtain ⟨r1, r2, r3, r4, r5, r6, r7, r8,
                ⟨depB2, hT2, hq2⟩, r11⟩ := hspec
              apply ih s2 _ p hres
              refine ⟨hne, ?_, r6, ?_, r7, ?_, depF, depB2, ?_, ?_, ?_, ?_⟩
              · rw [r1, r2]
                exact hfv
              · rw [r2]
                exact hnodf
              · intro k hk
                rw [r1] at hk
                exact r8 k hk
              · rw [r2, r4]
                exact hTF
              · rw [r5]
                exact hT2
              · intro q hq3
                rw [r3] at hq3
                refine QEntryF_mono ?_ (fun x _ => rfl) (by rw [r4]) (hqf q ?_)
                · intro x hx
                  rw [r1]
                  exact hx
                · dsimp only at hq3
                  exact hq3
              · intro q hq3
                refine QEntryB_mono (fun x hx => hx) (fun x _ => rfl)
                  (by rw [r5]) (hq2 q hq3)
        · apply ih s _ p hres
          exact ⟨hne, hfv, hbv, hnodf, hnodb, hdisj, depF, depB, hTF, hTB,
            hqf, hqb⟩
    · simp at hres

theorem alookup_singleton {κ β : Type} [DecidableEq κ] (k0 : κ) (v : β)
    (k : κ) :
    alookup [(k0, v)] k = if k = k0 then some v else none := by
  by_cases hk : k = k0
  · subst hk
    rw [if_pos rfl]
    exact alookup_cons_self k v []
  · rw [if_neg hk, alookup_cons_ne _ _ hk]
    rfl

theorem PTree_singleton (root c : String) (hc : normalize_title c = root)
    (b : Nat) :
    PTree [(root, (none, c))] root c b (fun _ => 0) := by
  refine ⟨alookup_cons_self _ _ _, rfl, ?_, ?_, ?_, ?_⟩
  · intro k po c2 hl
    rw [alookup_singleton] at hl
    split at hl
    · rename_i hk
      subst hk
      have h2 := Option.some.inj hl
      have : c2 = c := by
        have := congrArg Prod.snd h2
        simpa using this.symm
      rw [this]
      exact hc
    · simp at hl
  · intro k c2 hl
    rw [alookup_singleton] at hl
    split at hl
    · assumption
    · simp at hl
  · intro k p c2 hl
    rw [alookup_singleton] at hl
    split at hl
    · exact absurd (congrArg Prod.fst (Option.some.inj hl)).symm (by simp)
    · simp at hl
  · intro k po c2 hl
    exact Nat.zero_le b

theorem SingleInv_init (start endT : String)
    (hne : normalize_title start ≠ normalize_title endT) :
    SingleInv start endT (initPFState start endT) := by
  unfold SingleInv initPFState
  dsimp only
  refine ⟨hne, rfl, rfl, by simp [keysOf], by simp [keysOf], ?_,
    fun _ => 0, fun _ => 0, ?_, ?_, ?_, ?_⟩
  · intro k hk
    have hk2 : k ∈ [normalize_title start] := hk
    rw [List.mem_singleton] at hk2
    intro hk3
    rw [hk2] at hk3
    have hk4 : normalize_title start ∈ [normalize_title endT] := hk3
    rw [List.mem_singleton] at hk4
    exact hne hk4
  · exact PTree_singleton _ _ rfl _
  · exact PTree_singleton _ _ rfl _
  · intro q hq
    have hq2 : q = (start, [start], 0) := by
      have hq3 : q ∈ [(start, [start], 0)] := hq
      simpa using hq3
    subst hq2
    refine ⟨rfl, rfl, rfl, by simp, ?_, by omega, rfl⟩
    intro t ht
    rw [List.mem_singleton] at ht
    subst ht
    exact List.mem_singleton.2 rfl
  · intro q hq
    have hq2 : q = (endT, [endT], 0) := by
      have hq3 : q ∈ [(endT, [endT], 0)] := hq
      simpa using hq3
    subst hq2
    refine ⟨rfl, rfl, rfl, by simp, ?_, by omega, rfl⟩
    intro t ht
    rw [List.mem_singleton] at ht
    subst ht
    exact List.mem_singleton.2 rfl

theorem find_path_sound (o : Oracle) (start endT : String)
    (maxd fuel : Nat) (p : List String)
    (hres : (find_path_bidirectional o start endT maxd fuel).1 = some p) :
    GoodPath start endT (maxd + 3) p := by
  rw [find_path_bidirectional] at hres
  split at hres
  · rename_i heq
    have hpe : p = [start] := by simpa using hres.symm
    subst hpe
    exact ⟨by simp, by simp [heq], by simp, by simp⟩
  · rename_i hne
    exact bfsLoop_sound o start endT maxd fuel _
      (SingleInv_init start endT hne) p hres

/-- Claim C1, counterexample.  On `overshootOracle` a 2-hop path
`[a, x, b]` exists well inside the depth cap, yet the engine's first
returned path is the 3-hop `[a, c, w, b]`: the backward scan inspects the
stale backlink `w` of `b` before `x` and accepts the first meeting point
found, so the FIFO frontier order does not make the first returned path
shortest. -/
theorem shortest_path_counterexample :
    chainOk overshootOracle ["a", "x", "b"] = true ∧
    (["a", "x", "b"] : List String).head? = some "a" ∧
    (["a", "x", "b"] : List String).getLast? = some "b" ∧
    (["a", "x", "b"] : List String).length - 1 ≤ 6 ∧
    (find_path_bidirectional overshootOracle "a" "b" 6 40).1 =
      some ["a", "c", "w", "b"] ∧
    ¬ ((["a", "c", "w", "b"] : List String).length ≤
        (["a", "x", "b"] : List String).length) := by
  refine ⟨?_, ?_, ?_, ?_, ?_, ?_⟩ <;> decide

/-- Claim C1, amended.  The premise that some start-to-end path of length
`ℓ ≤ max_total_depth` exists in the oracle graph does not bound the first
returned path by `ℓ`; what the engine does guarantee is the depth-cap
bound: any returned path has at most `max_total_depth + 3` hops. -/
theorem shortest_path_amended (o : Oracle) (start endT : String)
    (maxd fuel : Nat) (q : List String) (hq : chainOk o q = true)
    (hqh : q.head? = some start) (hql : q.getLast? = some endT)
    (hqlen : q.length - 1 ≤ maxd) (p : List String)
    (hres : (find_path_bidirectional o start endT maxd fuel).1 = some p) :
    p.length - 1 ≤ maxd + 3 :=
  (find_path_sound o start endT maxd fuel p hres).2.2.2

/-- Witness for the amended C1 on `overshootOracle`. -/
theorem shortest_path_amended_witness :
    (["a", "c", "w", "b"] : List String).length - 1 ≤ 6 + 3 :=
  shortest_path_amended overshootOracle "a" "b" 6 40 ["a", "x", "b"]
    (by decide) (by decide) (by decide) (by decide) ["a", "c", "w", "b"]
    (by decide)

/-- Claim C2, counterexample.  On the 7-hop chain `a0 → … → a7` with
`max_total_depth = 6` the engine returns the full 7-hop path: the guard
`forward_depth + backward_depth ≤ max_depth` lets the two frontiers meet
one level beyond the cap, so `n ≤ max_total_depth` is false as stated. -/
theorem returned_path_counterexample :
    (find_path_bidirectional chainOracle "a0" "a7" 6 40).1 =
      some ["a0", "a1", "a2", "a3", "a4", "a5", "a6", "a7"] ∧
    ¬ ((["a0", "a1", "a2", "a3", "a4", "a5", "a6", "a7"] :
        List String).length - 1 ≤ 6) := by
  constructor <;> decide

/-- Claim C2, amended.  Every path returned by `find_path_bidirectional`
has pairwise-distinct titles and endpoints normalizing to the normalized
start and end; its hop count is bounded by `max_total_depth + 3` (not by
`max_total_depth`: the counterexample shows up to that slack is real). -/
theorem returned_path_invariant (o : Oracle) (start endT : String)
    (maxd fuel : Nat) (p : List String)
    (hres : (find_path_bidirectional o start endT maxd fuel).1 = some p) :
    p.Nodup ∧
    p.head?.map normalize_title = some (normalize_title start) ∧
    p.getLast?.map normalize_title = some (normalize_title endT) ∧
    p.length - 1 ≤ maxd + 3 := by
  obtain ⟨g1, g2, g3, g4⟩ := find_path_sound o start endT maxd fuel p hres
  exact ⟨g3.of_map normalize_title, g1, g2, g4⟩

/-- Witness for the amended C2 on `staleBacklinkOracle` (the returned
path `[a, x, b]` validates and satisfies every conjunct). -/
theorem returned_path_invariant_witness :
    (["a", "x", "b"] : List String).Nodup ∧
    (["a", "x", "b"] : List String).head?.map normalize_title =
      some (normalize_title "a") ∧
    (["a", "x", "b"] : List String).getLast?.map normalize_title =
      some (normalize_title "b") ∧
    (["a", "x", "b"] : List String).length - 1 ≤ 6 + 3 :=
  returned_path_invariant staleBacklinkOracle "a" "b" 6 40 ["a", "x", "b"]
    (by decide)
